import Mathlib

/-!
Verification of the namespace-translation and content-caching layer of the
azure-blob-fuse adapter (`src/blob_container.rs`, `src/filesystem.rs`).

The Rust code is shallowly embedded:
* `HashMap` becomes an association list with replace-on-insert semantics
  (`alookup` / `ainsert`); iteration order of the model list stands in for the
  unspecified `HashMap` iteration order.
* `u64`/`u32` inodes, sizes and offsets become `Nat` (no arithmetic in the
  source comes near the machine-word bounds); `SystemTime` instants become
  `Nat` timestamps; `SystemTime::now()` becomes a clock oracle `Nat → Nat`
  indexed by the order of the `now()` calls inside one operation.
* The paginated Azure listing becomes `List (Except String (List BlobItem))`;
  the remote blob fetch becomes an explicit `Except String (List Nat)`
  argument describing what the network would return if the fetch happened.
* Fallible Rust code returns `Except`; the places where the Rust code can
  panic (`Bytes::slice` with `start > end`, the `unwrap` inside `readdir`)
  are modelled by an explicit `panicked` result constructor.
-/

/-! ## Association lists modelling `std::collections::HashMap` -/

/-- Lookup in an association list (`HashMap::get`). -/
def alookup {α β : Type} [DecidableEq α] : List (α × β) → α → Option β
  | [], _ => none
  | (k, v) :: rest, a => if k = a then some v else alookup rest a

/-- Insert with replacement (`HashMap::insert`): an existing binding for the
key is overwritten, otherwise the binding is appended. -/
def ainsert {α β : Type} [DecidableEq α] : List (α × β) → α → β → List (α × β)
  | [], k, v => [(k, v)]
  | (k', v') :: rest, k, v =>
      if k' = k then (k, v) :: rest else (k', v') :: ainsert rest k v

theorem alookup_ainsert {α β : Type} [DecidableEq α] (m : List (α × β)) (k : α) (v : β) (a : α) :
    alookup (ainsert m k v) a = if a = k then some v else alookup m a := by
  induction m with
  | nil =>
    by_cases h : a = k
    · simp [ainsert, alookup, h]
    · have h' : ¬ k = a := fun hh => h hh.symm
      simp [ainsert, alookup, h, h']
  | cons kv rest ih =>
    obtain ⟨k', v'⟩ := kv
    by_cases hk : k' = k
    · by_cases h : a = k
      · simp [ainsert, alookup, hk, h]
      · have h2 : ¬ k = a := fun hh => h hh.symm
        have h3 : ¬ k' = a := fun hh => h (hk ▸ hh : k = a).symm
        simp [ainsert, alookup, hk, h, h2, h3]
    · by_cases h : k' = a
      · have h2 : ¬ a = k := fun hh => hk (hh ▸ h : k' = k)
        simp [ainsert, alookup, hk, h, h2]
      · simp [ainsert, alookup, hk, h, ih]

theorem alookup_ainsert_self {α β : Type} [DecidableEq α] (m : List (α × β)) (k : α) (v : β) :
    alookup (ainsert m k v) k = some v := by
  simp [alookup_ainsert]

theorem alookup_ainsert_ne {α β : Type} [DecidableEq α] (m : List (α × β)) (k : α) (v : β)
    (a : α) (h : a ≠ k) : alookup (ainsert m k v) a = alookup m a := by
  simp [alookup_ainsert, h]

theorem mem_ainsert {α β : Type} [DecidableEq α] {m : List (α × β)} {k : α} {v : β}
    {x : α × β} (h : x ∈ ainsert m k v) : x = (k, v) ∨ x ∈ m := by
  induction m with
  | nil => simpa [ainsert] using h
  | cons kv rest ih =>
    obtain ⟨k', v'⟩ := kv
    by_cases hk : k' = k
    · subst hk
      rcases (by simpa [ainsert] using h : x = (k', v) ∨ x ∈ rest) with h1 | h2
      · exact Or.inl h1
      · exact Or.inr (List.mem_cons_of_mem _ h2)
    · rcases (by simpa [ainsert, hk] using h : x = (k', v') ∨ x ∈ ainsert rest k v) with h1 | h2
      · exact Or.inr (by simp [h1])
      · rcases ih h2 with h3 | h4
        · exact Or.inl h3
        · exact Or.inr (List.mem_cons_of_mem _ h4)

theorem alookup_mem {α β : Type} [DecidableEq α] {m : List (α × β)} {a : α} {b : β}
    (h : alookup m a = some b) : (a, b) ∈ m := by
  induction m with
  | nil => simp [alookup] at h
  | cons kv rest ih =>
    obtain ⟨k, v⟩ := kv
    by_cases hk : k = a
    · subst hk
      simp [alookup] at h
      simp [h]
    · simp only [alookup, hk, if_false] at h
      exact List.mem_cons_of_mem _ (ih h)

/-! ## Splitting on `'/'` — the model of Rust's `str::split('/')` and
`[&str]::join("/")`, defined on character lists by structural recursion. -/

/-- Prepend a character onto the first segment of a segment list. -/
def consSeg (c : Char) : List (List Char) → List (List Char)
  | s :: ss => (c :: s) :: ss
  | [] => [[c]]

/-- Split a character list at every `'/'`; always returns at least one
(possibly empty) segment, exactly like Rust's `split('/')`. -/
def splitChars : List Char → List (List Char)
  | [] => [[]]
  | c :: rest =>
      if c = '/' then [] :: splitChars rest
      else consSeg c (splitChars rest)

/-- Interleave `'/'` between segments (`join("/")`). -/
def joinChars : List (List Char) → List Char
  | [] => []
  | [s] => s
  | s :: rest => s ++ '/' :: joinChars rest

theorem splitChars_cons_ne {c : Char} (l : List Char) (h : ¬ c = '/') :
    splitChars (c :: l) = consSeg c (splitChars l) := by
  simp [splitChars, h]

theorem splitChars_ne_nil (l : List Char) : splitChars l ≠ [] := by
  cases l with
  | nil => simp [splitChars]
  | cons c rest =>
    by_cases h : c = '/'
    · simp [splitChars, h]
    · simp only [splitChars, h, if_false]
      cases splitChars rest <;> simp [consSeg]

theorem joinChars_splitChars (l : List Char) : joinChars (splitChars l) = l := by
  induction l with
  | cons c rest ih =>
    by_cases h : c = '/'
    · subst h
      simp only [splitChars, if_pos rfl]
      cases hs : splitChars rest with
      | nil => exact absurd hs (splitChars_ne_nil rest)
      | cons s ss =>
        rw [hs] at ih
        simp [joinChars, ih]
    · simp only [splitChars, h, if_false]
      cases hs : splitChars rest with
      | nil => exact absurd hs (splitChars_ne_nil rest)
      | cons s ss =>
        rw [hs] at ih
        cases ss with
        | nil =>
          simp only [joinChars] at ih
          simp [consSeg, joinChars, ih]
        | cons t ts =>
          simp only [joinChars] at ih
          simp [consSeg, joinChars, ih]
  | nil => simp [splitChars, joinChars]

theorem noSlash_of_mem_splitChars {l : List Char} {s : List Char}
    (h : s ∈ splitChars l) : '/' ∉ s := by
  induction l generalizing s with
  | nil =>
    simp [splitChars] at h
    simp [h]
  | cons c rest ih =>
    by_cases hc : c = '/'
    · subst hc
      simp only [splitChars, if_pos rfl] at h
      rcases List.mem_cons.mp h with h1 | h2
      · simp [h1]
      · exact ih h2
    · simp only [splitChars, hc, if_false] at h
      cases hs : splitChars rest with
      | nil => exact absurd hs (splitChars_ne_nil rest)
      | cons t ts =>
        rw [hs] at h
        simp only [consSeg] at h
        rcases List.mem_cons.mp h with h1 | h2
        · subst h1
          intro hmem
          rcases List.mem_cons.mp hmem with h3 | h4
          · exact hc h3.symm
          · exact ih (s := t) (by rw [hs]; exact List.mem_cons_self t ts) h4
        · exact ih (by rw [hs]; exact List.mem_cons_of_mem t h2)

theorem splitChars_of_noSlash {s : List Char} (h : '/' ∉ s) : splitChars s = [s] := by
  induction s with
  | nil => simp [splitChars]
  | cons c rest ih =>
    have hc : ¬ c = '/' := fun hc => h (by simp [hc])
    have hrest : '/' ∉ rest := fun hm => h (List.mem_cons_of_mem _ hm)
    simp [splitChars, hc, ih hrest, consSeg]

theorem splitChars_append {s t : List Char} (h : '/' ∉ s) :
    splitChars (s ++ '/' :: t) = s :: splitChars t := by
  induction s with
  | nil => simp [splitChars]
  | cons c rest ih =>
    have hc : ¬ c = '/' := fun hc => h (by simp [hc])
    have hrest : '/' ∉ rest := fun hm => h (List.mem_cons_of_mem _ hm)
    rw [List.cons_append, splitChars_cons_ne _ hc, ih hrest]
    rfl

theorem splitChars_joinChars {L : List (List Char)} (hne : L ≠ [])
    (h : ∀ s ∈ L, '/' ∉ s) : splitChars (joinChars L) = L := by
  induction L with
  | nil => exact absurd rfl hne
  | cons s rest ih =>
    cases rest with
    | nil =>
      simp only [joinChars]
      exact splitChars_of_noSlash (h s (List.mem_cons_self s []))
    | cons t ts =>
      have hs : '/' ∉ s := h s (List.mem_cons_self _ _)
      simp only [joinChars, splitChars_append hs]
      rw [ih (by simp) (fun u hu => h u (List.mem_cons_of_mem _ hu))]

theorem joinChars_ne_nil {L : List (List Char)} {s0 : List Char} {rest : List (List Char)}
    (hL : L = s0 :: rest) (h0 : s0 ≠ []) : joinChars L ≠ [] := by
  subst hL
  cases rest with
  | nil => simpa [joinChars] using h0
  | cons t ts =>
    cases s0 with
    | nil => exact absurd rfl h0
    | cons c cs => simp [joinChars]

/-! ## String-level path helpers (`str::split('/')`, `join("/")`,
`Path::parent`, `Path::file_name`). -/

/-- Model of `blob_name.split('/').collect::<Vec<_>>()`. -/
def segs (s : String) : List String :=
  (splitChars s.data).map String.mk

/-- Model of `Vec<&str>::join("/")`. -/
def joinSlash (L : List String) : String :=
  String.mk (joinChars (L.map String.data))

/-- A string containing no `'/'`. -/
def noSlash (s : String) : Prop := '/' ∉ s.data

theorem joinSlash_segs (s : String) : joinSlash (segs s) = s := by
  cases s with
  | mk data =>
    simp only [segs, joinSlash]
    rw [List.map_map]
    have : (String.data ∘ String.mk) = id := rfl
    rw [this, List.map_id, joinChars_splitChars]

theorem segs_ne_nil (s : String) : segs s ≠ [] := by
  intro h
  cases hs : splitChars s.data with
  | nil => exact splitChars_ne_nil s.data hs
  | cons a l =>
    rw [segs, hs] at h
    simp at h

theorem noSlash_of_mem_segs {s : String} {t : String} (h : t ∈ segs s) : noSlash t := by
  simp only [segs, List.mem_map] at h
  obtain ⟨cs, hcs, hts⟩ := h
  subst hts
  exact noSlash_of_mem_splitChars hcs

theorem segs_joinSlash {L : List String} (hne : L ≠ []) (h : ∀ s ∈ L, noSlash s) :
    segs (joinSlash L) = L := by
  simp only [segs, joinSlash]
  rw [splitChars_joinChars]
  · rw [List.map_map]
    have : (String.mk ∘ String.data) = id := rfl
    rw [this, List.map_id]
  · simpa using hne
  · intro cs hcs
    rcases List.mem_map.mp hcs with ⟨t, htL, hts⟩
    subst hts
    exact h t htL

/-- `""` has exactly one, empty, segment. -/
theorem segs_empty : segs "" = [""] := rfl

theorem joinSlash_ne_empty {L : List String} {s0 : String} {rest : List String}
    (hL : L = s0 :: rest) (h0 : s0 ≠ "") : joinSlash L ≠ "" := by
  subst hL
  intro hcontra
  have hdata : joinChars ((s0 :: rest).map String.data) = [] := by
    have := congrArg String.data hcontra
    simpa [joinSlash] using this
  have h0' : s0.data ≠ [] := by
    intro hd
    exact h0 (by cases s0; simp at hd; simp [hd])
  exact joinChars_ne_nil rfl h0' hdata

/-- Model of `Path::new(s).parent().map(|p| p.to_str().unwrap_or(""))`,
for paths free of `.` and `..` components (the only paths the claims use):
the parent drops the last non-empty component; a path with no components
has no parent. -/
def pathParent (s : String) : Option String :=
  match (segs s).filter (fun t => t ≠ "") with
  | [] => none
  | comps => some (joinSlash comps.dropLast)

/-- Model of `Path::new(s).file_name().unwrap_or_default().to_string_lossy()`
for paths free of `.` and `..` components: the last non-empty component. -/
def pathFileName (s : String) : String :=
  (((segs s).filter (fun t => t ≠ "")).getLast?).getD ""

/-! ## The data model (`blob_container.rs`) -/

/-- `FUSE_ROOT_ID`. -/
def fuseRootId : Nat := 1

/-- `BlobInfo`: a file entry. `data` is the lazily-filled content cache. -/
structure BlobInfo where
  name : String
  size : Nat
  lastModified : Nat
  inode : Nat
  data : Option (List Nat)
deriving DecidableEq

/-- `BlobDirectory`: a directory entry with a name → inode child map. -/
structure BlobDirectory where
  entries : List (String × Nat)
  inode : Nat
deriving DecidableEq

/-- `BlobDirectory::new(inode, parent)`. -/
def BlobDirectory.new (inode parent : Nat) : BlobDirectory :=
  { entries := [("..", parent), (".", inode)], inode := inode }

/-- `BlobDirectory::add_file`. -/
def BlobDirectory.addFile (d : BlobDirectory) (name : String) (inode : Nat) : BlobDirectory :=
  { d with entries := ainsert d.entries name inode }

/-- `BlobDirectory::root()`. -/
def BlobDirectory.root : BlobDirectory :=
  { entries := [("..", fuseRootId), (".", fuseRootId)], inode := fuseRootId }

/-- `BlobEntry`. -/
inductive BlobEntry where
  | file (b : BlobInfo)
  | dir (d : BlobDirectory)
deriving DecidableEq

/-- The inode stored in an entry. -/
def entryInode : BlobEntry → Nat
  | .file b => b.inode
  | .dir d => d.inode

/-- `BlobContainer` state: `blob_cache` (path → entry), `inode_map`
(inode → path), `next_inode`. The network client is kept outside the state
and modelled per-call. -/
structure BlobContainer where
  blobCache : List (String × BlobEntry)
  inodeMap : List (Nat × String)
  nextInode : Nat
deriving DecidableEq

/-- The container state `BlobContainer::new` builds before `load_blobs`:
only the root directory, with `next_inode = 2`. -/
def BlobContainer.initial : BlobContainer :=
  { blobCache := [("", .dir BlobDirectory.root)]
    inodeMap := [(fuseRootId, "")]
    nextInode := 2 }

/-- `BlobContainer::add_directory`: insert the new directory into both maps,
then (on the updated maps) resolve the parent inode to a path and, if that
path holds a directory, register the new directory in it under its full
path name. -/
def BlobContainer.addDirectory (c : BlobContainer) (name : String) (inode parent : Nat) :
    BlobContainer :=
  let cache := ainsert c.blobCache name (.dir (BlobDirectory.new inode parent))
  let imap := ainsert c.inodeMap inode name
  match alookup imap parent with
  | none => { c with blobCache := cache, inodeMap := imap }
  | some parentName =>
      match alookup cache parentName with
      | some (.dir d) =>
          { c with
            blobCache := ainsert cache parentName (.dir (d.addFile name inode))
            inodeMap := imap }
      | _ => { c with blobCache := cache, inodeMap := imap }

/-- One iteration of the loop in `BlobContainer::process_directories`
(loop index `i`, state = (`parent_inode`, container)): look up the `i`-segment
path-prefix; reuse an existing directory, otherwise synthesize one with a
fresh inode. -/
def processStep (parts : List String) (st : Nat × BlobContainer) (i : Nat) :
    Nat × BlobContainer :=
  let dirPath := joinSlash (parts.take i)
  let parentInode := st.1
  let c := st.2
  match alookup c.blobCache dirPath with
  | some (.dir d) => (d.inode, c)
  | _ =>
      let ni := c.nextInode
      let c' := c.addDirectory dirPath ni parentInode
      (ni, { c' with nextInode := ni + 1 })

/-- `BlobContainer::process_directories`: `for i in 1..path_parts.len()`
(`List.range' 1 (n-1)` is exactly `[1, ..., n-1]`). -/
def BlobContainer.processDirectories (c : BlobContainer) (blobName : String) : BlobContainer :=
  let parts := segs blobName
  ((List.range' 1 (parts.length - 1)).foldl (processStep parts) (fuseRootId, c)).2

/-- Optional blob properties from the listing (`content_length`,
`last_modified`). -/
structure BlobProperties where
  contentLength : Option Nat
  lastModified : Option Nat
deriving DecidableEq

/-- One record of the remote listing: the blob name (already unwrapped, as in
`blob_item.name.unwrap().content.unwrap()`) and its optional properties. -/
structure BlobItem where
  name : String
  properties : Option BlobProperties
deriving DecidableEq

/-- `properties.content_length.unwrap_or(0)` (0 when properties are absent). -/
def itemSize (item : BlobItem) : Nat :=
  match item.properties with
  | some props => props.contentLength.getD 0
  | none => 0

/-- `properties.last_modified.unwrap_or(now)` (`now` when properties are
absent — the `SystemTime::now()` / `OffsetDateTime::now_utc()` default). -/
def itemLastModified (now : Nat) (item : BlobItem) : Nat :=
  match item.properties with
  | some props => props.lastModified.getD now
  | none => now

/-- The `BlobInfo` record `load_blobs` creates for one listing record. -/
def blobInfoOfItem (now : Nat) (item : BlobItem) (inode : Nat) : BlobInfo :=
  { name := item.name, size := itemSize item
    lastModified := itemLastModified now item, inode := inode, data := none }

/-- Second half of the `load_blobs` loop body: allocate a fresh inode,
create the `BlobInfo`, insert it into both maps, and — if the parent path
holds a directory — register the file in it under its basename. -/
def insertBlob (now : Nat) (item : BlobItem) (parentPath : String) (c1 : BlobContainer) :
    BlobContainer :=
  let inode := c1.nextInode
  let c3 : BlobContainer :=
    { blobCache := ainsert c1.blobCache item.name (.file (blobInfoOfItem now item inode))
      inodeMap := ainsert c1.inodeMap inode item.name
      nextInode := c1.nextInode + 1 }
  match alookup c3.blobCache parentPath with
  | some (BlobEntry.dir pd) =>
      { c3 with
        blobCache := ainsert c3.blobCache parentPath
          (.dir (pd.addFile (pathFileName item.name) inode)) }
  | _ => c3

/-- The body of the `for blob_item in segment.blob_items` loop in
`BlobContainer::load_blobs`: when the path has a parent, synthesize the
prefix directories and use the parent path; otherwise the parent path is
`""`; then insert the blob itself. -/
def processItem (now : Nat) (c : BlobContainer) (item : BlobItem) : BlobContainer :=
  match pathParent item.name with
  | some p => insertBlob now item p (c.processDirectories item.name)
  | none => insertBlob now item "" c

/-- `BlobContainer::load_blobs` over the page stream: each `Ok` page's items
are processed in order; the first `Err` page aborts with that error. -/
def loadBlobs (now : Nat) (c : BlobContainer) :
    List (Except String (List BlobItem)) → Except String BlobContainer
  | [] => .ok c
  | .ok items :: rest => loadBlobs now (items.foldl (processItem now) c) rest
  | .error e :: _ => .error e

/-- `BlobContainer::new`: start from the root-only state and run
`load_blobs`; any error aborts construction and no container is returned. -/
def BlobContainer.build (now : Nat) (pages : List (Except String (List BlobItem))) :
    Except String BlobContainer :=
  loadBlobs now BlobContainer.initial pages

/-- `BlobContainer::get_entry_by_inode`. -/
def BlobContainer.getEntryByInode (c : BlobContainer) (inode : Nat) : Option BlobEntry :=
  match alookup c.inodeMap inode with
  | some path => alookup c.blobCache path
  | none => none

/-- `BlobContainer::get_directory`. -/
def BlobContainer.getDirectory (c : BlobContainer) (inode : Nat) : Option BlobDirectory :=
  match c.getEntryByInode inode with
  | some (.dir d) => some d
  | _ => none

/-- Result of `BlobInfo::download`: the returned bytes or error, the updated
entry, and whether a remote fetch was performed. -/
structure DownloadOutcome where
  result : Except String (List Nat)
  info : BlobInfo
  fetched : Bool

/-- `BlobInfo::download` (the async body; `download_sync` just blocks on it):
serve cached data when present; otherwise fetch, memoize on success, and
propagate the failure without caching anything otherwise. `remote` is what
the network would return for this fetch. -/
def BlobInfo.download (b : BlobInfo) (remote : Except String (List Nat)) : DownloadOutcome :=
  match b.data with
  | some d => { result := .ok d, info := b, fetched := false }
  | none =>
      match remote with
      | .ok d => { result := .ok d, info := { b with data := some d }, fetched := true }
      | .error e => { result := .error e, info := b, fetched := true }

/-- `Bytes::slice(b..e)`: defined only when `b ≤ e ≤ len` (otherwise the Rust
call panics, modelled as `none`). -/
def bytesSlice (data : List Nat) (b e : Nat) : Option (List Nat) :=
  if b ≤ e ∧ e ≤ data.length then some ((data.take e).drop b) else none

/-- Result of `BlobContainer::download_blob`: bytes, an `anyhow` error, or a
panic (from `Bytes::slice` with `start > end`). -/
inductive ReadOutcome where
  | ok (bytes : List Nat)
  | error (msg : String)
  | panicked
deriving DecidableEq

/-- `BlobContainer::download_blob(inode, offset, size)`: resolve the inode to
a file, download (cached or remote), then slice `offset..min(offset+size, len)`.
Any entry that is absent or a directory produces the single
"Blob with inode not found" error. The i64 offset is modelled as `Nat`
(the FUSE bridge guarantees non-negative offsets). -/
def BlobContainer.downloadBlob (c : BlobContainer) (remote : Except String (List Nat))
    (inode offset size : Nat) : ReadOutcome × BlobContainer :=
  match alookup c.inodeMap inode with
  | some blobName =>
      match alookup c.blobCache blobName with
      | some (.file b) =>
          let out := b.download remote
          let c' := { c with blobCache := ainsert c.blobCache blobName (.file out.info) }
          match out.result with
          | .ok data =>
              match bytesSlice data offset (min (offset + size) data.length) with
              | some bytes => (.ok bytes, c')
              | none => (.panicked, c')
          | .error e => (.error e, c')
      | _ => (.error "Blob with inode not found", c)
  | none => (.error "Blob with inode not found", c)

/-! ## The protocol adapter (`filesystem.rs`) -/

/-- `fuser::FileType` (the two variants the code uses). -/
inductive FileType where
  | regularFile
  | directory
deriving DecidableEq

/-- `fuser::FileAttr`. -/
structure FileAttr where
  ino : Nat
  size : Nat
  blocks : Nat
  atime : Nat
  mtime : Nat
  ctime : Nat
  crtime : Nat
  kind : FileType
  perm : Nat
  nlink : Nat
  uid : Nat
  gid : Nat
  rdev : Nat
  blksize : Nat
  flags : Nat
deriving DecidableEq

/-- `impl From<&BlobEntry> for FileAttr`. For a directory the four timestamps
are four separate `SystemTime::now()` calls, modelled as the clock oracle
sampled at instants 0, 1, 2, 3 (in the order the struct fields are written). -/
def fileAttrOfEntry (clock : Nat → Nat) : BlobEntry → FileAttr
  | .file b =>
      { ino := b.inode
        size := b.size
        blocks := (b.size + 511) / 512  -- size.div_ceil(512)
        atime := b.lastModified
        mtime := b.lastModified
        ctime := b.lastModified
        crtime := b.lastModified
        kind := .regularFile
        perm := 0o644
        nlink := 1
        uid := 0
        gid := 0
        rdev := 0
        blksize := 4096
        flags := 0 }
  | .dir d =>
      { ino := d.inode
        size := 0
        blocks := 0
        atime := clock 0
        mtime := clock 1
        ctime := clock 2
        crtime := clock 3
        kind := .directory
        perm := 0o755
        nlink := 2
        uid := 0
        gid := 0
        rdev := 0
        blksize := 4096
        flags := 0 }

/-- Error codes the handlers reply with: `enoent` is the libc no-such-entry
code, `enotdir` the not-a-directory code, `eio` the generic I/O error code
(names kept lowercase here). -/
inductive FuseError where
  | enoent
  | enotdir
  | eio
deriving DecidableEq

/-- `BlobFilesystem`. -/
structure BlobFilesystem where
  blobContainer : BlobContainer
  userId : Nat
  groupId : Nat
deriving DecidableEq

/-- `BlobFilesystem::get_attrs`: synthesize attributes and overwrite
uid/gid with the configured owner and group. -/
def BlobFilesystem.getAttrs (fs : BlobFilesystem) (clock : Nat → Nat)
    (entry : BlobEntry) : FileAttr :=
  let attr := fileAttrOfEntry clock entry
  { attr with uid := fs.userId, gid := fs.groupId }

/-- `BlobFilesystem::getattr` handler: reply attributes, or `enoent` when the
inode does not resolve. -/
def BlobFilesystem.getattr (fs : BlobFilesystem) (clock : Nat → Nat) (ino : Nat) :
    Except FuseError FileAttr :=
  match fs.blobContainer.getEntryByInode ino with
  | some entry => .ok (fs.getAttrs clock entry)
  | none => .error .enoent

/-- Result of the `readdir` handler: the emitted `(inode, kind, name)`
triples, an error reply, or a panic (the `.unwrap()` on a child inode that
does not resolve). -/
inductive ReaddirOutcome where
  | ok (ents : List (Nat × FileType × String))
  | error (e : FuseError)
  | panicked
deriving DecidableEq

/-- The `kind` computed for each entry inside the `readdir` loop. -/
def entryKind : BlobEntry → FileType
  | .dir _ => FileType.directory
  | .file _ => FileType.regularFile

/-- The emission loop of `readdir` over the remaining directory entries:
resolve each child inode (`unwrap`: `none` = panic), stop early once the
reply buffer is full (`cap` = how many more entries fit). The resolution
happens before the buffer-full check, as in the source. -/
def emitEntries (c : BlobContainer) : List (String × Nat) → Nat →
    Option (List (Nat × FileType × String))
  | [], _ => some []
  | (name, ino) :: rest, cap =>
      match c.getEntryByInode ino with
      | none => none
      | some entry =>
          if cap = 0 then some []
          else
            match emitEntries c rest (cap - 1) with
            | none => none
            | some l => some ((ino, entryKind entry, name) :: l)

/-- `BlobFilesystem::readdir` handler: resolve the inode to a directory
(replying `enotdir` when `get_directory` gives nothing — whether the inode is
unknown or names a non-directory); then emit children starting at `offset`. -/
def BlobFilesystem.readdir (fs : BlobFilesystem) (ino offset cap : Nat) : ReaddirOutcome :=
  match fs.blobContainer.getDirectory ino with
  | some d =>
      match emitEntries fs.blobContainer (d.entries.drop offset) cap with
      | some ents => .ok ents
      | none => .panicked
  | none => .error .enotdir

/-- `BlobFilesystem::lookup` handler: parent must resolve to a directory
(else `enotdir`, including for an unknown parent); the name must be among its
children and the child inode must resolve (else `enoent`). -/
def BlobFilesystem.lookup (fs : BlobFilesystem) (clock : Nat → Nat)
    (parent : Nat) (name : String) : Except FuseError FileAttr :=
  match fs.blobContainer.getEntryByInode parent with
  | some (BlobEntry.dir d) =>
      match alookup d.entries name with
      | some inode =>
          match fs.blobContainer.getEntryByInode inode with
          | some entry => .ok (fs.getAttrs clock entry)
          | none => .error .enoent
      | none => .error .enoent
  | _ => .error .enotdir

/-- Reply of the `read` handler. -/
inductive ReadReply where
  | data (bytes : List Nat)
  | error (e : FuseError)
  | panicked
deriving DecidableEq

/-- `BlobFilesystem::read` handler: delegate to `download_blob`; reply the
bytes on success and `eio` on every error. -/
def BlobFilesystem.read (fs : BlobFilesystem) (remote : Except String (List Nat))
    (ino offset size : Nat) : ReadReply × BlobFilesystem :=
  match fs.blobContainer.downloadBlob remote ino offset size with
  | (.ok bytes, c') => (.data bytes, { fs with blobContainer := c' })
  | (.error _, c') => (.error .eio, { fs with blobContainer := c' })
  | (.panicked, c') => (.panicked, { fs with blobContainer := c' })

instance {ε α : Type} [DecidableEq ε] [DecidableEq α] : DecidableEq (Except ε α) := fun x y =>
  match x, y with
  | .ok a, .ok b =>
      if h : a = b then .isTrue (congrArg Except.ok h)
      else .isFalse fun hh => h (by injection hh)
  | .ok _, .error _ => .isFalse fun hh => by injection hh
  | .error _, .ok _ => .isFalse fun hh => by injection hh
  | .error e, .error f =>
      if h : e = f then .isTrue (congrArg Except.error h)
      else .isFalse fun hh => h (by injection hh)

/-! ## Sanity checks of the executable model -/

example : segs "a/b/c" = ["a", "b", "c"] := by decide
example : segs "" = [""] := by decide
example : segs "a/" = ["a", ""] := by decide
example : joinSlash ["a", "b"] = "a/b" := by decide
example : pathParent "a/b/c" = some "a/b" := by decide
example : pathParent "a" = some "" := by decide
example : pathParent "" = none := by decide
example : pathFileName "a/b/c" = "c" := by decide
example : pathFileName "" = "" := by decide

/-- A listing item with the given name, size and modification time. -/
def mkItem (name : String) (size lm : Nat) : BlobItem :=
  { name := name, properties := some { contentLength := some size, lastModified := some lm } }

example :
    BlobContainer.build 0 [.ok [mkItem "a/b/c" 10 5]] =
      .ok { blobCache :=
              [("", .dir { entries := [("..", 1), (".", 1), ("a", 2)], inode := 1 }),
               ("a", .dir { entries := [("..", 1), (".", 2), ("a/b", 3)], inode := 2 }),
               ("a/b", .dir { entries := [("..", 2), (".", 3), ("c", 4)], inode := 3 }),
               ("a/b/c", .file { name := "a/b/c", size := 10, lastModified := 5,
                                 inode := 4, data := none })]
            inodeMap := [(1, ""), (2, "a"), (3, "a/b"), (4, "a/b/c")]
            nextInode := 5 } := by decide

/-- Extract the container from a successful construction (fallback for the
error case, which the theorems using this always rule out). -/
def getOkOr (d : BlobContainer) : Except String BlobContainer → BlobContainer
  | .ok c => c
  | .error _ => d

example :
    (getOkOr BlobContainer.initial
      (BlobContainer.build 0 [.ok [mkItem "a" 1 0, mkItem "a/b" 2 0]])).inodeMap =
      [(1, ""), (2, "a"), (3, "a"), (4, "a/b")] := by decide

example :
    alookup (getOkOr BlobContainer.initial
      (BlobContainer.build 0 [.ok [mkItem "a/b" 2 0, mkItem "a" 1 0]])).blobCache "a" =
      some (.file { name := "a", size := 1, lastModified := 0, inode := 4, data := none }) := by
  decide

/-- A filesystem over the root-only container (uid = gid = 0). -/
def rootOnlyFs : BlobFilesystem :=
  { blobContainer := BlobContainer.initial, userId := 0, groupId := 0 }

/-! ## C1 — byte-range read clamping -/

/-- A cached 100-byte file at inode 2. -/
def c1File : BlobInfo :=
  { name := "f", size := 100, lastModified := 0, inode := 2, data := some (List.range 100) }

/-- Container holding the root and `c1File`. -/
def c1Container : BlobContainer :=
  { blobCache := [("", .dir BlobDirectory.root), ("f", .file c1File)]
    inodeMap := [(1, ""), (2, "f")]
    nextInode := 3 }

/-- C1: on a file of content length 100, `download_blob` correctly clamps a
read at `(offset=90, length=50)` to the last 10 bytes, but a read at
`(offset=150, length=10)` — entirely beyond end-of-content — does not return
an empty result: `end` is clamped to `min(offset+size, len) = 100 < offset`,
and `Bytes::slice(150..100)` panics, contradicting the claim that such a
request "returns an empty byte sequence and never an error". -/
theorem c1_read_beyond_eof_panics :
    (c1Container.downloadBlob (.error "unused") 2 90 50).1 =
      ReadOutcome.ok ((List.range 100).drop 90) ∧
    (c1Container.downloadBlob (.error "unused") 2 150 10).1 = ReadOutcome.panicked := by
  constructor
  · decide
  · decide

/-! ## C2 — error kinds of readdir and lookup -/

/-- C2 counterexample: `readdir` on the unknown identifier 42 replies
`enotdir`, not `NotFound`, and `lookup` with the unknown parent identifier 42
also replies `enotdir` — unknown-identifier and non-directory failures are
conflated, contrary to the claim. -/
theorem c2_unknown_id_gets_enotdir :
    rootOnlyFs.readdir 42 0 10 = ReaddirOutcome.error FuseError.enotdir ∧
    rootOnlyFs.lookup (fun _ => 0) 42 "x" = Except.error FuseError.enotdir ∧
    FuseError.enotdir ≠ FuseError.enoent := by
  refine ⟨by decide, ?_, by decide⟩
  decide

/-- C2 (amended): `readdir` replies `enotdir` both when the identifier is
unknown and when it resolves to a file; `lookup` replies `enotdir` both when
the parent is unknown and when it resolves to a file, and replies `enoent`
when the parent is a directory but the name is absent from it. -/
theorem c2_error_kinds (fs : BlobFilesystem) (clock : Nat → Nat) (ino parent : Nat)
    (name : String) (off cap : Nat) :
    (fs.blobContainer.getEntryByInode ino = none →
      fs.readdir ino off cap = ReaddirOutcome.error FuseError.enotdir) ∧
    (∀ b, fs.blobContainer.getEntryByInode ino = some (.file b) →
      fs.readdir ino off cap = ReaddirOutcome.error FuseError.enotdir) ∧
    (fs.blobContainer.getEntryByInode parent = none →
      fs.lookup clock parent name = Except.error FuseError.enotdir) ∧
    (∀ b, fs.blobContainer.getEntryByInode parent = some (.file b) →
      fs.lookup clock parent name = Except.error FuseError.enotdir) ∧
    (∀ d, fs.blobContainer.getEntryByInode parent = some (.dir d) →
      alookup d.entries name = none →
      fs.lookup clock parent name = Except.error FuseError.enoent) := by
  refine ⟨?_, ?_, ?_, ?_, ?_⟩
  · intro h
    simp [BlobFilesystem.readdir, BlobContainer.getDirectory, h]
  · intro b h
    simp [BlobFilesystem.readdir, BlobContainer.getDirectory, h]
  · intro h
    simp [BlobFilesystem.lookup, h]
  · intro b h
    simp [BlobFilesystem.lookup, h]
  · intro d h hn
    simp [BlobFilesystem.lookup, h, hn]

/-- Witness for `c2_error_kinds` at concrete inputs: the unknown identifier
42 over the root-only container, and a missing name in the root directory. -/
theorem c2_error_kinds_witness :
    rootOnlyFs.readdir 42 0 10 = ReaddirOutcome.error FuseError.enotdir ∧
    rootOnlyFs.lookup (fun _ => 0) 1 "zzz" = Except.error FuseError.enoent :=
  ⟨(c2_error_kinds rootOnlyFs (fun _ => 0) 42 1 "zzz" 0 10).1 (by decide),
   (c2_error_kinds rootOnlyFs (fun _ => 0) 42 1 "zzz" 0 10).2.2.2.2
     BlobDirectory.root (by decide) (by decide)⟩

/-! ## C3 — error kinds of read -/

/-- C3 counterexample: `read` on the unknown identifier 42 and `read` on
identifier 1 (the root directory) both reply the generic I/O error `eio` —
not `NotFound` / `NotAFile` respectively, contrary to the claim that each
failure kind is replied as its own error code. -/
theorem c3_all_read_failures_eio :
    (rootOnlyFs.read (.error "net") 42 0 10).1 = ReadReply.error FuseError.eio ∧
    (rootOnlyFs.read (.error "net") 1 0 10).1 = ReadReply.error FuseError.eio ∧
    FuseError.eio ≠ FuseError.enoent := by
  refine ⟨?_, ?_, by decide⟩
  · decide
  · decide

/-- A container holding the root and an uncached file "g" at inode 2. -/
def c3Container : BlobContainer :=
  { blobCache := [("", .dir BlobDirectory.root),
                  ("g", .file { name := "g", size := 4, lastModified := 0,
                                inode := 2, data := none })]
    inodeMap := [(1, ""), (2, "g")]
    nextInode := 3 }

/-- C3 (amended): `read` surfaces every failure as the generic I/O error:
an unknown identifier, an identifier resolving to a directory, and a remote
fetch failure all reply `eio` (the container code produces one
"not found" error for the first two, and the handler maps every error to
`eio`). -/
theorem c3_read_failure_modes (fs : BlobFilesystem) (remote : Except String (List Nat))
    (ino off sz : Nat) :
    (fs.blobContainer.getEntryByInode ino = none →
      (fs.read remote ino off sz).1 = ReadReply.error FuseError.eio) ∧
    (∀ d, fs.blobContainer.getEntryByInode ino = some (.dir d) →
      (fs.read remote ino off sz).1 = ReadReply.error FuseError.eio) ∧
    (∀ b e, fs.blobContainer.getEntryByInode ino = some (.file b) → b.data = none →
      remote = .error e → (fs.read remote ino off sz).1 = ReadReply.error FuseError.eio) := by
  refine ⟨?_, ?_, ?_⟩
  · intro h
    cases hi : alookup fs.blobContainer.inodeMap ino with
    | none =>
      simp [BlobFilesystem.read, BlobContainer.downloadBlob, hi]
    | some path =>
      have hc : alookup fs.blobContainer.blobCache path = none := by
        simpa [BlobContainer.getEntryByInode, hi] using h
      simp [BlobFilesystem.read, BlobContainer.downloadBlob, hi, hc]
  · intro d h
    cases hi : alookup fs.blobContainer.inodeMap ino with
    | none =>
      simp [BlobFilesystem.read, BlobContainer.downloadBlob, hi]
    | some path =>
      have hc : alookup fs.blobContainer.blobCache path = some (.dir d) := by
        simpa [BlobContainer.getEntryByInode, hi] using h
      simp [BlobFilesystem.read, BlobContainer.downloadBlob, hi, hc]
  · intro b e h hd hr
    cases hi : alookup fs.blobContainer.inodeMap ino with
    | none => simp [BlobContainer.getEntryByInode, hi] at h
    | some path =>
      have hc : alookup fs.blobContainer.blobCache path = some (.file b) := by
        simpa [BlobContainer.getEntryByInode, hi] using h
      subst hr
      simp [BlobFilesystem.read, BlobContainer.downloadBlob, hi, hc,
            BlobInfo.download, hd]

/-- Witness for `c3_read_failure_modes`: the unknown identifier 42, the root
directory, and a failed fetch of the uncached file "g". -/
theorem c3_read_failure_modes_witness :
    (rootOnlyFs.read (.error "net") 42 0 10).1 = ReadReply.error FuseError.eio ∧
    (rootOnlyFs.read (.error "net") 1 0 10).1 = ReadReply.error FuseError.eio ∧
    ((⟨c3Container, 0, 0⟩ : BlobFilesystem).read (.error "net") 2 0 4).1 =
      ReadReply.error FuseError.eio :=
  ⟨(c3_read_failure_modes rootOnlyFs (.error "net") 42 0 10).1 (by decide),
   (c3_read_failure_modes rootOnlyFs (.error "net") 1 0 10).2.1
     BlobDirectory.root (by decide),
   (c3_read_failure_modes ⟨c3Container, 0, 0⟩ (.error "net") 2 0 4).2.2
     { name := "g", size := 4, lastModified := 0, inode := 2, data := none } "net"
     (by decide) (by decide) rfl⟩

/-! ## C5 — synthesized directory structure -/

/-- The container built from the single object `a/b/c`. -/
def c5Container : BlobContainer :=
  getOkOr BlobContainer.initial (BlobContainer.build 0 [.ok [mkItem "a/b/c" 10 5]])

/-- The container built from the listing `a/b` then `a` (in that order). -/
def c5bContainer : BlobContainer :=
  getOkOr BlobContainer.initial
    (BlobContainer.build 0 [.ok [mkItem "a/b" 2 0, mkItem "a" 1 0]])

/-- C5: building from the single object `a/b/c` synthesizes directory `a`,
but `add_directory` registers the nested directory in it under its full path
`a/b` — directory `a` has no child named `b` (the next segment), contrary to
the claim. Moreover, with the listing order `a/b`, `a`, the intermediate
prefix `a` ends up resolving to a File entry, not a Directory. -/
theorem c5_child_key_is_full_path :
    BlobContainer.build 0 [.ok [mkItem "a/b/c" 10 5]] = .ok c5Container ∧
    alookup c5Container.blobCache "a" =
      some (.dir { entries := [("..", 1), (".", 2), ("a/b", 3)], inode := 2 }) ∧
    alookup ([("..", 1), (".", 2), ("a/b", 3)] : List (String × Nat)) "b" = none ∧
    BlobContainer.build 0 [.ok [mkItem "a/b" 2 0, mkItem "a" 1 0]] = .ok c5bContainer ∧
    alookup c5bContainer.blobCache "a" =
      some (.file { name := "a", size := 1, lastModified := 0, inode := 4, data := none }) := by
  refine ⟨by decide, by decide, by decide, by decide, by decide⟩

/-! ## C6 — degenerate records and page errors during construction -/

/-- A listing record with an empty object name. -/
def emptyNameItem : BlobItem := { name := "", properties := none }

/-- The container built from the empty-name record (with `now = 7`). -/
def c6Container : BlobContainer :=
  getOkOr BlobContainer.initial (BlobContainer.build 7 [.ok [emptyNameItem]])

/-- C6 counterexample: an object record with an empty name does not abort
construction — the build succeeds, and the record's File entry is stored at
the root path `""`, replacing the root directory entry. -/
theorem c6_empty_name_accepted :
    BlobContainer.build 7 [.ok [emptyNameItem]] = .ok c6Container ∧
    alookup c6Container.blobCache "" =
      some (.file { name := "", size := 0, lastModified := 7, inode := 2, data := none }) := by
  refine ⟨by decide, by decide⟩

/-- True when a listing page is an `Err`. -/
def pageIsErr : Except String (List BlobItem) → Bool
  | .error _ => true
  | .ok _ => false

theorem loadBlobs_error_of_err_page (now : Nat) :
    ∀ (pages : List (Except String (List BlobItem))) (c : BlobContainer),
      pages.any pageIsErr = true → ∃ e, loadBlobs now c pages = .error e := by
  intro pages
  induction pages with
  | nil => intro c h; simp at h
  | cons p rest ih =>
    intro c h
    cases p with
    | error e => exact ⟨e, rfl⟩
    | ok items =>
      have h' : rest.any pageIsErr = true := by simpa [pageIsErr] using h
      exact ih _ h'

/-- C6 (amended): a listing page error aborts construction with an error (no
container is ever returned), but an object record with an empty name does
not abort: construction succeeds, storing the file at the root path. -/
theorem c6_page_error_aborts (now : Nat) (pages : List (Except String (List BlobItem))) :
    (pages.any pageIsErr = true → ∃ e, BlobContainer.build now pages = .error e) ∧
    (∃ c, BlobContainer.build 7 [.ok [emptyNameItem]] = .ok c) := by
  constructor
  · intro h
    exact loadBlobs_error_of_err_page now pages BlobContainer.initial h
  · exact ⟨c6Container, by decide⟩

/-- Witness for `c6_page_error_aborts`: a single failing page. -/
theorem c6_page_error_aborts_witness :
    ∃ e, BlobContainer.build 0 [Except.error "boom"] = Except.error e :=
  (c6_page_error_aborts 0 [Except.error "boom"]).1 (by decide)

/-! ## C7 — memoization of content fetches -/

/-- C7: `BlobInfo::download` memoizes. With an empty cache slot, a
successful fetch returns the full fetched content, stores exactly that
content in the slot, and counts as the one remote fetch; afterwards any
fetch (whatever the network would now return) is served from memory with
byte-identical content and no remote fetch, leaving the entry unchanged. A
failed fetch returns the error, stores nothing, and leaves the slot empty,
so the next fetch hits the remote again. -/
theorem c7_download_memoizes (b : BlobInfo) (d : List Nat)
    (r2 : Except String (List Nat)) (e : String) :
    (∀ d0, b.data = some d0 →
      b.download r2 = { result := .ok d0, info := b, fetched := false }) ∧
    (b.data = none →
      b.download (.ok d) =
        { result := .ok d, info := { b with data := some d }, fetched := true } ∧
      ({ b with data := some d } : BlobInfo).download r2 =
        { result := .ok d, info := { b with data := some d }, fetched := false }) ∧
    (b.data = none →
      b.download (.error e) = { result := .error e, info := b, fetched := true } ∧
      (b.download (.error e)).info.data = none ∧
      (b.download (.error e)).info.download r2 = b.download r2) := by
  refine ⟨?_, ?_, ?_⟩
  · intro d0 h
    simp [BlobInfo.download, h]
  · intro h
    constructor
    · simp [BlobInfo.download, h]
    · simp [BlobInfo.download]
  · intro h
    refine ⟨?_, ?_, ?_⟩
    · simp [BlobInfo.download, h]
    · simp [BlobInfo.download, h]
    · simp [BlobInfo.download, h]

/-- Witness for `c7_download_memoizes`: a concrete uncached file, fetched
content `[9, 8, 7]`, and a second call answered from memory. -/
theorem c7_download_memoizes_witness :
    ({ name := "f", size := 3, lastModified := 0, inode := 2, data := none } :
        BlobInfo).download (.ok [9, 8, 7]) =
      { result := .ok [9, 8, 7]
        info := { name := "f", size := 3, lastModified := 0, inode := 2, data := some [9, 8, 7] }
        fetched := true } ∧
    ({ name := "f", size := 3, lastModified := 0, inode := 2, data := some [9, 8, 7] } :
        BlobInfo).download (.error "net") =
      { result := .ok [9, 8, 7]
        info := { name := "f", size := 3, lastModified := 0, inode := 2, data := some [9, 8, 7] }
        fetched := false } :=
  ⟨((c7_download_memoizes
      { name := "f", size := 3, lastModified := 0, inode := 2, data := none }
      [9, 8, 7] (.error "net") "e").2.1 rfl).1,
   ((c7_download_memoizes
      { name := "f", size := 3, lastModified := 0, inode := 2, data := none }
      [9, 8, 7] (.error "net") "e").2.1 rfl).2⟩

/-! ## C8 — attribute synthesis -/

/-- C8: for every resolvable identifier, `getattr` replies success with a
record whose kind matches the entry variant, fixed permission bits (0o644
for files, 0o755 for directories), the configured owner and group, and link
count 1 for files / 2 for directories; an unresolvable identifier replies
`enoent`. -/
theorem c8_getattr_record (uid gid : Nat) (c : BlobContainer) (clock : Nat → Nat) (ino : Nat) :
    (c.getEntryByInode ino = none →
      BlobFilesystem.getattr ⟨c, uid, gid⟩ clock ino = Except.error FuseError.enoent) ∧
    (∀ b, c.getEntryByInode ino = some (.file b) →
      ∃ a, BlobFilesystem.getattr ⟨c, uid, gid⟩ clock ino = Except.ok a ∧
        a.kind = FileType.regularFile ∧ a.perm = 0o644 ∧ a.nlink = 1 ∧
        a.uid = uid ∧ a.gid = gid) ∧
    (∀ d, c.getEntryByInode ino = some (.dir d) →
      ∃ a, BlobFilesystem.getattr ⟨c, uid, gid⟩ clock ino = Except.ok a ∧
        a.kind = FileType.directory ∧ a.perm = 0o755 ∧ a.nlink = 2 ∧
        a.uid = uid ∧ a.gid = gid) := by
  refine ⟨?_, ?_, ?_⟩
  · intro h
    simp [BlobFilesystem.getattr, h]
  · intro b h
    refine ⟨BlobFilesystem.getAttrs ⟨c, uid, gid⟩ clock (.file b), ?_, ?_, ?_, ?_, ?_, ?_⟩
    · simp [BlobFilesystem.getattr, h]
    all_goals simp [BlobFilesystem.getAttrs, fileAttrOfEntry]
  · intro d h
    refine ⟨BlobFilesystem.getAttrs ⟨c, uid, gid⟩ clock (.dir d), ?_, ?_, ?_, ?_, ?_, ?_⟩
    · simp [BlobFilesystem.getattr, h]
    all_goals simp [BlobFilesystem.getAttrs, fileAttrOfEntry]

/-- Witness for `c8_getattr_record`: the root directory with configured
owner 1000 and group 100, and the unknown identifier 42. -/
theorem c8_getattr_record_witness :
    BlobFilesystem.getattr ⟨BlobContainer.initial, 1000, 100⟩ (fun _ => 5) 42 =
      Except.error FuseError.enoent ∧
    (∃ a, BlobFilesystem.getattr ⟨BlobContainer.initial, 1000, 100⟩ (fun _ => 5) 1 =
      Except.ok a ∧ a.kind = FileType.directory ∧ a.perm = 0o755 ∧ a.nlink = 2 ∧
      a.uid = 1000 ∧ a.gid = 100) :=
  ⟨(c8_getattr_record 1000 100 BlobContainer.initial (fun _ => 5) 42).1 (by decide),
   (c8_getattr_record 1000 100 BlobContainer.initial (fun _ => 5) 1).2.2
     BlobDirectory.root (by decide)⟩

/-! ## C10 — timestamps in synthesized attribute records -/

/-- C10 counterexample: with a clock that advances between the four
`SystemTime::now()` calls, `getattr` on the root directory returns
`atime = 0` but `mtime = 1`: the four directory timestamps are four separate
clock samples and need not be equal, contrary to the claim that all four
equal "the system clock sampled during that call". -/
theorem c10_dir_timestamps_can_differ :
    rootOnlyFs.getattr (fun i => i) 1 =
      Except.ok { ino := 1, size := 0, blocks := 0, atime := 0, mtime := 1, ctime := 2,
                  crtime := 3, kind := FileType.directory, perm := 0o755, nlink := 2,
                  uid := 0, gid := 0, rdev := 0, blksize := 4096, flags := 0 } ∧
    (0 : Nat) ≠ 1 := by
  refine ⟨?_, by decide⟩
  decide

/-- C10 (amended): a directory's attribute record reports size 0, blocks 0,
nlink 2, perm 0o755 and takes its four timestamps from four successive
system-clock samples made during that call (so two calls — or even the four
fields of one call — can differ as the clock advances), while a file's
record is fully determined by the stored entry: all four timestamps equal
the stored last-modified time, and the record is identical across calls
under any two clocks. -/
theorem c10_attr_timestamps (uid gid : Nat) (c : BlobContainer)
    (clock clock2 : Nat → Nat) (ino : Nat) :
    (∀ d, c.getEntryByInode ino = some (.dir d) →
      BlobFilesystem.getattr ⟨c, uid, gid⟩ clock ino =
        Except.ok { ino := d.inode, size := 0, blocks := 0, atime := clock 0,
                    mtime := clock 1, ctime := clock 2, crtime := clock 3,
                    kind := FileType.directory, perm := 0o755, nlink := 2, uid := uid,
                    gid := gid, rdev := 0, blksize := 4096, flags := 0 }) ∧
    (∀ b, c.getEntryByInode ino = some (.file b) →
      BlobFilesystem.getattr ⟨c, uid, gid⟩ clock ino =
        Except.ok { ino := b.inode, size := b.size, blocks := (b.size + 511) / 512,
                    atime := b.lastModified, mtime := b.lastModified,
                    ctime := b.lastModified, crtime := b.lastModified,
                    kind := FileType.regularFile, perm := 0o644, nlink := 1, uid := uid,
                    gid := gid, rdev := 0, blksize := 4096, flags := 0 } ∧
      BlobFilesystem.getattr ⟨c, uid, gid⟩ clock ino =
        BlobFilesystem.getattr ⟨c, uid, gid⟩ clock2 ino) := by
  constructor
  · intro d h
    simp [BlobFilesystem.getattr, h, BlobFilesystem.getAttrs, fileAttrOfEntry]
  · intro b h
    constructor
    · simp [BlobFilesystem.getattr, h, BlobFilesystem.getAttrs, fileAttrOfEntry]
    · simp [BlobFilesystem.getattr, h, BlobFilesystem.getAttrs, fileAttrOfEntry]

/-- Witness for `c10_attr_timestamps`: the root directory under the
identity clock, and a concrete file under two different clocks. -/
theorem c10_attr_timestamps_witness :
    BlobFilesystem.getattr ⟨BlobContainer.initial, 0, 0⟩ (fun i => i) 1 =
      Except.ok { ino := 1, size := 0, blocks := 0, atime := 0, mtime := 1, ctime := 2,
                  crtime := 3, kind := FileType.directory, perm := 0o755, nlink := 2,
                  uid := 0, gid := 0, rdev := 0, blksize := 4096, flags := 0 } ∧
    BlobFilesystem.getattr ⟨c1Container, 0, 0⟩ (fun i => i) 2 =
      BlobFilesystem.getattr ⟨c1Container, 0, 0⟩ (fun i => i + 100) 2 :=
  ⟨(c10_attr_timestamps 0 0 BlobContainer.initial (fun i => i) (fun i => i) 1).1
     BlobDirectory.root (by decide),
   ((c10_attr_timestamps 0 0 c1Container (fun i => i) (fun i => i + 100) 2).2
     c1File (by decide)).2⟩

/-! ## C9 — no dangling identifiers -/

/-- A key is present in an association list. -/
def hasKey {α β : Type} [DecidableEq α] (m : List (α × β)) (k : α) : Prop :=
  ∃ v, alookup m k = some v

theorem hasKey_ainsert_self {α β : Type} [DecidableEq α] (m : List (α × β)) (k : α) (v : β) :
    hasKey (ainsert m k v) k :=
  ⟨v, alookup_ainsert_self m k v⟩

theorem hasKey_ainsert {α β : Type} [DecidableEq α] {m : List (α × β)} {j : α}
    (h : hasKey m j) (k : α) (v : β) : hasKey (ainsert m k v) j := by
  by_cases hjk : j = k
  · subst hjk
    exact hasKey_ainsert_self m j v
  · obtain ⟨w, hw⟩ := h
    exact ⟨w, by rw [alookup_ainsert_ne m k v j hjk]; exact hw⟩

/-- Resolution-safety invariant of a container state: the root inode is
registered; every path registered for an inode is present in the blob cache;
every cached entry's own inode is registered; every child inode recorded in
any cached directory is registered. Together these make every identifier
that can ever be handed out resolve via `get_entry_by_inode`. -/
structure ResolveInv (c : BlobContainer) : Prop where
  root_key : hasKey c.inodeMap fuseRootId
  map_cache : ∀ i n, alookup c.inodeMap i = some n → hasKey c.blobCache n
  entry_key : ∀ n e, alookup c.blobCache n = some e → hasKey c.inodeMap (entryInode e)
  child_key : ∀ n d, alookup c.blobCache n = some (BlobEntry.dir d) →
    ∀ s j, (s, j) ∈ d.entries → hasKey c.inodeMap j

theorem resolveInv_initial : ResolveInv BlobContainer.initial := by
  refine ⟨⟨"", by decide⟩, ?_, ?_, ?_⟩
  · intro i n h
    have h' : (if (1 : Nat) = i then some "" else none) = some n := h
    by_cases hi : (1 : Nat) = i
    · rw [if_pos hi] at h'
      obtain rfl : "" = n := by injection h'
      exact ⟨BlobEntry.dir BlobDirectory.root, by decide⟩
    · rw [if_neg hi] at h'
      cases h'
  · intro n e h
    have h' : (if ("" : String) = n then some (BlobEntry.dir BlobDirectory.root) else none) =
        some e := h
    by_cases hn : ("" : String) = n
    · rw [if_pos hn] at h'
      obtain rfl : BlobEntry.dir BlobDirectory.root = e := by injection h'
      exact ⟨"", by decide⟩
    · rw [if_neg hn] at h'
      cases h'
  · intro n d h s j hsj
    have h' : (if ("" : String) = n then some (BlobEntry.dir BlobDirectory.root) else none) =
        some (BlobEntry.dir d) := h
    by_cases hn : ("" : String) = n
    · rw [if_pos hn] at h'
      obtain hdd : BlobEntry.dir BlobDirectory.root = BlobEntry.dir d := by injection h'
      obtain rfl : BlobDirectory.root = d := by injection hdd
      have hj : j = fuseRootId := by
        rcases (by simpa [BlobDirectory.root] using hsj :
          (s = ".." ∧ j = fuseRootId) ∨ (s = "." ∧ j = fuseRootId)) with ⟨_, hj⟩ | ⟨_, hj⟩
        · exact hj
        · exact hj
      subst hj
      exact ⟨"", by decide⟩
    · rw [if_neg hn] at h'
      cases h'

/-- Inserting an entry at path `name` while registering its inode in the
inode map preserves the invariant, provided all child inodes of the new
entry (when it is a directory) are registered afterwards. -/
theorem resolveInv_insert_pair {c c' : BlobContainer} (inv : ResolveInv c) {name : String}
    {e : BlobEntry}
    (hcache : c'.blobCache = ainsert c.blobCache name e)
    (himap : c'.inodeMap = ainsert c.inodeMap (entryInode e) name)
    (he : ∀ d, e = BlobEntry.dir d → ∀ s j, (s, j) ∈ d.entries → hasKey c'.inodeMap j) :
    ResolveInv c' := by
  refine ⟨?_, ?_, ?_, ?_⟩
  · rw [himap]
    exact hasKey_ainsert inv.root_key _ _
  · intro i n h
    rw [himap] at h
    rw [hcache]
    by_cases hi : i = entryInode e
    · subst hi
      rw [alookup_ainsert_self] at h
      obtain rfl : name = n := by injection h
      exact hasKey_ainsert_self _ _ _
    · rw [alookup_ainsert_ne _ _ _ _ hi] at h
      exact hasKey_ainsert (inv.map_cache i n h) _ _
  · intro n' e' h
    rw [hcache] at h
    rw [himap]
    by_cases hn : n' = name
    · subst hn
      rw [alookup_ainsert_self] at h
      obtain rfl : e = e' := by injection h
      exact hasKey_ainsert_self _ _ _
    · rw [alookup_ainsert_ne _ _ _ _ hn] at h
      exact hasKey_ainsert (inv.entry_key n' e' h) _ _
  · intro n' d h s j hsj
    rw [hcache] at h
    by_cases hn : n' = name
    · subst hn
      rw [alookup_ainsert_self] at h
      obtain he' : e = BlobEntry.dir d := by injection h
      exact he d he' s j hsj
    · rw [alookup_ainsert_ne _ _ _ _ hn] at h
      rw [himap]
      exact hasKey_ainsert (inv.child_key n' d h s j hsj) _ _

/-- Updating an existing directory in place by adding one child whose inode
is registered preserves the invariant. -/
theorem resolveInv_add_child {c c' : BlobContainer} (inv : ResolveInv c) {pname : String}
    {d : BlobDirectory} (hd : alookup c.blobCache pname = some (BlobEntry.dir d))
    {s0 : String} {j0 : Nat} (hk : hasKey c.inodeMap j0)
    (hcache : c'.blobCache = ainsert c.blobCache pname (BlobEntry.dir (d.addFile s0 j0)))
    (himap : c'.inodeMap = c.inodeMap) : ResolveInv c' := by
  refine ⟨?_, ?_, ?_, ?_⟩
  · rw [himap]; exact inv.root_key
  · intro i n h
    rw [himap] at h
    rw [hcache]
    exact hasKey_ainsert (inv.map_cache i n h) _ _
  · intro n e h
    rw [hcache] at h
    rw [himap]
    by_cases hn : n = pname
    · subst hn
      rw [alookup_ainsert_self] at h
      obtain rfl : BlobEntry.dir (d.addFile s0 j0) = e := by injection h
      exact inv.entry_key n (BlobEntry.dir d) hd
    · rw [alookup_ainsert_ne _ _ _ _ hn] at h
      exact inv.entry_key n e h
  · intro n d' h s j hsj
    rw [hcache] at h
    rw [himap]
    by_cases hn : n = pname
    · subst hn
      rw [alookup_ainsert_self] at h
      obtain hdd : BlobEntry.dir (d.addFile s0 j0) = BlobEntry.dir d' := by injection h
      obtain rfl : d.addFile s0 j0 = d' := by injection hdd
      have hsj' : (s, j) ∈ ainsert d.entries s0 j0 := hsj
      rcases mem_ainsert hsj' with h1 | h2
      · injection h1 with hs hj
        subst hs; subst hj
        exact hk
      · exact inv.child_key n d hd s j h2
    · rw [alookup_ainsert_ne _ _ _ _ hn] at h
      exact inv.child_key n d' h s j hsj

/-- `add_directory` unfolded (zeta-reduced); used to case-split its two
parent branches in proofs. -/
theorem addDirectory_eq (c : BlobContainer) (name : String) (inode parent : Nat) :
    c.addDirectory name inode parent =
      match alookup (ainsert c.inodeMap inode name) parent with
      | none =>
          { c with blobCache := ainsert c.blobCache name (.dir (BlobDirectory.new inode parent))
                   inodeMap := ainsert c.inodeMap inode name }
      | some parentName =>
          match alookup (ainsert c.blobCache name (.dir (BlobDirectory.new inode parent)))
              parentName with
          | some (BlobEntry.dir d) =>
              { c with
                blobCache := ainsert
                  (ainsert c.blobCache name (.dir (BlobDirectory.new inode parent)))
                  parentName (.dir (d.addFile name inode))
                inodeMap := ainsert c.inodeMap inode name }
          | _ =>
              { c with blobCache := ainsert c.blobCache name (.dir (BlobDirectory.new inode parent))
                       inodeMap := ainsert c.inodeMap inode name } := rfl

theorem resolveInv_addDirectory (c : BlobContainer) (inv : ResolveInv c)
    (name : String) (inode parent : Nat) (hpar : hasKey c.inodeMap parent) :
    ResolveInv (c.addDirectory name inode parent) ∧
      hasKey (c.addDirectory name inode parent).inodeMap inode := by
  have invMid : ResolveInv
      { c with blobCache := ainsert c.blobCache name (.dir (BlobDirectory.new inode parent))
               inodeMap := ainsert c.inodeMap inode name } := by
    refine resolveInv_insert_pair inv rfl rfl ?_
    intro d hdd s j hsj
    obtain rfl : BlobDirectory.new inode parent = d := by injection hdd
    have hsj' : (s, j) ∈ [("..", parent), (".", inode)] := hsj
    rcases (by simpa using hsj' :
        (s = ".." ∧ j = parent) ∨ (s = "." ∧ j = inode)) with ⟨_, hj⟩ | ⟨_, hj⟩
    · subst hj
      exact hasKey_ainsert hpar _ _
    · subst hj
      exact hasKey_ainsert_self _ _ _
  rw [addDirectory_eq]
  split
  · exact ⟨invMid, hasKey_ainsert_self _ _ _⟩
  · split
    · rename_i d hcc
      exact ⟨resolveInv_add_child invMid hcc (hasKey_ainsert_self _ _ _) rfl rfl,
        hasKey_ainsert_self _ _ _⟩
    · exact ⟨invMid, hasKey_ainsert_self _ _ _⟩

/-- `processStep` unfolded (zeta-reduced). -/
theorem processStep_eq (parts : List String) (st : Nat × BlobContainer) (i : Nat) :
    processStep parts st i =
      match alookup st.2.blobCache (joinSlash (parts.take i)) with
      | some (BlobEntry.dir d) => (d.inode, st.2)
      | _ =>
          (st.2.nextInode,
            { st.2.addDirectory (joinSlash (parts.take i)) st.2.nextInode st.1 with
              nextInode := st.2.nextInode + 1 }) := rfl

theorem resolveInv_processStep (parts : List String) (st : Nat × BlobContainer) (i : Nat)
    (inv : ResolveInv st.2) (hpar : hasKey st.2.inodeMap st.1) :
    ResolveInv (processStep parts st i).2 ∧
      hasKey (processStep parts st i).2.inodeMap (processStep parts st i).1 := by
  rw [processStep_eq]
  cases hcc : alookup st.2.blobCache (joinSlash (parts.take i)) with
  | none =>
      have h := resolveInv_addDirectory st.2 inv (joinSlash (parts.take i)) st.2.nextInode st.1 hpar
      exact ⟨⟨h.1.root_key, h.1.map_cache, h.1.entry_key, h.1.child_key⟩, h.2⟩
  | some e =>
      cases e with
      | dir d =>
          exact ⟨inv, inv.entry_key (joinSlash (parts.take i)) (BlobEntry.dir d) hcc⟩
      | file b =>
          have h := resolveInv_addDirectory st.2 inv (joinSlash (parts.take i)) st.2.nextInode
            st.1 hpar
          exact ⟨⟨h.1.root_key, h.1.map_cache, h.1.entry_key, h.1.child_key⟩, h.2⟩

theorem resolveInv_foldl_steps (parts : List String) :
    ∀ (idxs : List Nat) (st : Nat × BlobContainer), ResolveInv st.2 →
      hasKey st.2.inodeMap st.1 →
      ResolveInv ((idxs.foldl (processStep parts) st).2) ∧
        hasKey ((idxs.foldl (processStep parts) st).2).inodeMap
          ((idxs.foldl (processStep parts) st).1) := by
  intro idxs
  induction idxs with
  | nil => intro st h1 h2; exact ⟨h1, h2⟩
  | cons i rest ih =>
      intro st h1 h2
      have step := resolveInv_processStep parts st i h1 h2
      exact ih (processStep parts st i) step.1 step.2

theorem resolveInv_processDirectories (c : BlobContainer) (blobName : String)
    (inv : ResolveInv c) : ResolveInv (c.processDirectories blobName) := by
  have hroot : hasKey ((fuseRootId, c) : Nat × BlobContainer).2.inodeMap fuseRootId :=
    inv.root_key
  exact (resolveInv_foldl_steps (segs blobName)
    (List.range' 1 ((segs blobName).length - 1)) (fuseRootId, c) inv hroot).1

/-- `insertBlob` unfolded (zeta-reduced). -/
theorem insertBlob_eq (now : Nat) (item : BlobItem) (parentPath : String) (c1 : BlobContainer) :
    insertBlob now item parentPath c1 =
      match alookup (ainsert c1.blobCache item.name
          (.file (blobInfoOfItem now item c1.nextInode))) parentPath with
      | some (BlobEntry.dir pd) =>
          { blobCache := ainsert
              (ainsert c1.blobCache item.name
                (.file (blobInfoOfItem now item c1.nextInode)))
              parentPath (.dir (pd.addFile (pathFileName item.name) c1.nextInode))
            inodeMap := ainsert c1.inodeMap c1.nextInode item.name
            nextInode := c1.nextInode + 1 }
      | _ =>
          { blobCache := ainsert c1.blobCache item.name
              (.file (blobInfoOfItem now item c1.nextInode))
            inodeMap := ainsert c1.inodeMap c1.nextInode item.name
            nextInode := c1.nextInode + 1 } := rfl

theorem resolveInv_insertBlob (now : Nat) (item : BlobItem) (parentPath : String)
    (c1 : BlobContainer) (inv : ResolveInv c1) :
    ResolveInv (insertBlob now item parentPath c1) := by
  have invMid : ResolveInv
      ({ blobCache := ainsert c1.blobCache item.name
           (.file (blobInfoOfItem now item c1.nextInode))
         inodeMap := ainsert c1.inodeMap c1.nextInode item.name
         nextInode := c1.nextInode + 1 } : BlobContainer) := by
    refine resolveInv_insert_pair inv rfl rfl ?_
    intro d hdd s j hsj
    cases hdd
  rw [insertBlob_eq]
  split
  · rename_i pd hcc
    exact resolveInv_add_child invMid hcc (hasKey_ainsert_self _ _ _) rfl rfl
  · exact invMid

theorem resolveInv_processItem (now : Nat) (c : BlobContainer) (item : BlobItem)
    (inv : ResolveInv c) : ResolveInv (processItem now c item) := by
  unfold processItem
  cases hp : pathParent item.name with
  | some p =>
      exact resolveInv_insertBlob now item p (c.processDirectories item.name)
        (resolveInv_processDirectories c item.name inv)
  | none => exact resolveInv_insertBlob now item "" c inv

theorem resolveInv_foldl_items (now : Nat) :
    ∀ (items : List BlobItem) (c : BlobContainer), ResolveInv c →
      ResolveInv (items.foldl (processItem now) c) := by
  intro items
  induction items with
  | nil => intro c h; exact h
  | cons item rest ih =>
      intro c h
      exact ih (processItem now c item) (resolveInv_processItem now c item h)

theorem resolveInv_loadBlobs (now : Nat) :
    ∀ (pages : List (Except String (List BlobItem))) (c c' : BlobContainer),
      ResolveInv c → loadBlobs now c pages = .ok c' → ResolveInv c' := by
  intro pages
  induction pages with
  | nil =>
      intro c c' h hl
      obtain rfl : c = c' := by injection hl
      exact h
  | cons p rest ih =>
      intro c c' h hl
      cases p with
      | error e => cases hl
      | ok items =>
          exact ih (items.foldl (processItem now) c) c'
            (resolveInv_foldl_items now items c h) hl

theorem resolveInv_build (now : Nat) (pages : List (Except String (List BlobItem)))
    (c : BlobContainer) (h : BlobContainer.build now pages = .ok c) : ResolveInv c :=
  resolveInv_loadBlobs now pages BlobContainer.initial c resolveInv_initial h

theorem getEntryByInode_spec (c : BlobContainer) (ino : Nat) (e : BlobEntry)
    (h : c.getEntryByInode ino = some e) :
    ∃ n, alookup c.inodeMap ino = some n ∧ alookup c.blobCache n = some e := by
  unfold BlobContainer.getEntryByInode at h
  cases hn : alookup c.inodeMap ino with
  | none => rw [hn] at h; cases h
  | some n => rw [hn] at h; exact ⟨n, rfl, h⟩

theorem getDirectory_spec (c : BlobContainer) (ino : Nat) (d : BlobDirectory)
    (h : c.getDirectory ino = some d) : c.getEntryByInode ino = some (BlobEntry.dir d) := by
  unfold BlobContainer.getDirectory at h
  cases he : c.getEntryByInode ino with
  | none => rw [he] at h; cases h
  | some e =>
      rw [he] at h
      cases e with
      | dir d' =>
          obtain rfl : d' = d := by injection h
          rfl
      | file b => cases h

/-- Every registered inode resolves to a present entry. -/
theorem hasKey_resolves (c : BlobContainer) (inv : ResolveInv c) (j : Nat)
    (h : hasKey c.inodeMap j) : ∃ e, c.getEntryByInode j = some e := by
  obtain ⟨n, hn⟩ := h
  obtain ⟨e, he⟩ := inv.map_cache j n hn
  refine ⟨e, ?_⟩
  unfold BlobContainer.getEntryByInode
  rw [hn]
  exact he

theorem getAttrs_ino (fs : BlobFilesystem) (clock : Nat → Nat) (e : BlobEntry) :
    (fs.getAttrs clock e).ino = entryInode e := by
  cases e <;> rfl

/-- When every child inode in `ents` is registered, the emission loop never
panics and every emitted identifier resolves. -/
theorem emitEntries_some (c : BlobContainer) (inv : ResolveInv c) :
    ∀ (ents : List (String × Nat)) (cap : Nat),
      (∀ s j, (s, j) ∈ ents → hasKey c.inodeMap j) →
      ∃ l, emitEntries c ents cap = some l ∧
        ∀ j k s, (j, k, s) ∈ l → ∃ e, c.getEntryByInode j = some e := by
  intro ents
  induction ents with
  | nil =>
      intro cap h
      exact ⟨[], rfl, by simp⟩
  | cons p rest ih =>
      obtain ⟨name, ino⟩ := p
      intro cap h
      obtain ⟨e, he⟩ := hasKey_resolves c inv ino (h name ino (by simp))
      cases cap with
      | zero =>
          refine ⟨[], ?_, by simp⟩
          simp only [emitEntries, he]
          rfl
      | succ cap' =>
          obtain ⟨l, hl, hres⟩ := ih cap' (fun s j hj => h s j (List.mem_cons_of_mem _ hj))
          refine ⟨(ino, entryKind e, name) :: l, ?_, ?_⟩
          · simp only [emitEntries, he, Nat.succ_sub_one]
            simp [hl]
          · intro j k s hjk
            rcases List.mem_cons.mp hjk with h1 | h2
            · injection h1 with ha hb
              subst ha
              exact ⟨e, he⟩
            · exact hres j k s h2

/-- C9: after any successful construction, the identifiers emitted in
replies all resolve to present entries: `readdir` never hits its panicking
`unwrap` (every internal child-inode resolution succeeds), every
`(inode, kind, name)` triple it emits carries a resolvable inode, and the
attribute records returned by `lookup` and `getattr` carry resolvable
inodes — no dangling identifier is ever handed to a caller. -/
theorem c9_no_dangling_ids (now : Nat) (pages : List (Except String (List BlobItem)))
    (c : BlobContainer) (uid gid : Nat)
    (hbuild : BlobContainer.build now pages = .ok c) :
    (∀ ino off cap,
      BlobFilesystem.readdir ⟨c, uid, gid⟩ ino off cap ≠ ReaddirOutcome.panicked) ∧
    (∀ ino off cap ents,
      BlobFilesystem.readdir ⟨c, uid, gid⟩ ino off cap = ReaddirOutcome.ok ents →
      ∀ j k s, (j, k, s) ∈ ents → ∃ e, c.getEntryByInode j = some e) ∧
    (∀ clock parent name a,
      BlobFilesystem.lookup ⟨c, uid, gid⟩ clock parent name = Except.ok a →
      ∃ e, c.getEntryByInode a.ino = some e) ∧
    (∀ clock ino a,
      BlobFilesystem.getattr ⟨c, uid, gid⟩ clock ino = Except.ok a →
      ∃ e, c.getEntryByInode a.ino = some e) := by
  have inv := resolveInv_build now pages c hbuild
  have hemit : ∀ ino (d : BlobDirectory) off cap,
      BlobContainer.getDirectory c ino = some d →
      ∃ l, emitEntries c (d.entries.drop off) cap = some l ∧
        ∀ j k s, (j, k, s) ∈ l → ∃ e, c.getEntryByInode j = some e := by
    intro ino d off cap hdir
    have hce := getDirectory_spec c ino d hdir
    obtain ⟨n, hn, hcache⟩ := getEntryByInode_spec c ino (BlobEntry.dir d) hce
    refine emitEntries_some c inv (d.entries.drop off) cap ?_
    intro s j hj
    exact inv.child_key n d hcache s j (List.drop_subset off d.entries hj)
  have hresolve_entry : ∀ (entry : BlobEntry) (m : String),
      alookup c.blobCache m = some entry →
      ∃ e, c.getEntryByInode (entryInode entry) = some e := by
    intro entry m hm
    exact hasKey_resolves c inv (entryInode entry) (inv.entry_key m entry hm)
  refine ⟨?_, ?_, ?_, ?_⟩
  · intro ino off cap
    unfold BlobFilesystem.readdir
    cases hdir : BlobContainer.getDirectory c ino with
    | none => simp
    | some d =>
        obtain ⟨l, hl, _⟩ := hemit ino d off cap hdir
        simp [hl]
  · intro ino off cap ents hrd
    unfold BlobFilesystem.readdir at hrd
    split at hrd
    · rename_i d hdir
      split at hrd
      · rename_i l hl
        obtain rfl : l = ents := by injection hrd
        obtain ⟨l', hl', hres⟩ := hemit ino d off cap hdir
        have heq2 : some l' = some l := hl'.symm.trans hl
        obtain rfl : l' = l := by injection heq2
        exact hres
      · cases hrd
    · cases hrd
  · intro clock parent name a hlk
    unfold BlobFilesystem.lookup at hlk
    split at hlk
    · rename_i d hpe
      split at hlk
      · rename_i child hname
        split at hlk
        · rename_i entry hch
          obtain rfl : BlobFilesystem.getAttrs ⟨c, uid, gid⟩ clock entry = a := by
            injection hlk
          obtain ⟨m, _, hm⟩ := getEntryByInode_spec c child entry hch
          rw [getAttrs_ino]
          exact hresolve_entry entry m hm
        · cases hlk
      · cases hlk
    · cases hlk
  · intro clock ino a hga
    unfold BlobFilesystem.getattr at hga
    split at hga
    · rename_i entry hpe
      obtain rfl : BlobFilesystem.getAttrs ⟨c, uid, gid⟩ clock entry = a := by
        injection hga
      obtain ⟨m, _, hm⟩ := getEntryByInode_spec c ino entry hpe
      rw [getAttrs_ino]
      exact hresolve_entry entry m hm
    · cases hga

/-- Witness for `c9_no_dangling_ids`: the container built from the listing
`a/b`, `a/c`. -/
def c9Container : BlobContainer :=
  getOkOr BlobContainer.initial
    (BlobContainer.build 0 [.ok [mkItem "a/b" 1 0, mkItem "a/c" 2 0]])

theorem c9_no_dangling_ids_witness :
    BlobFilesystem.readdir ⟨c9Container, 0, 0⟩ 2 0 10 ≠ ReaddirOutcome.panicked ∧
    BlobFilesystem.readdir ⟨c9Container, 0, 0⟩ 1 0 10 ≠ ReaddirOutcome.panicked :=
  ⟨(c9_no_dangling_ids 0 [.ok [mkItem "a/b" 1 0, mkItem "a/c" 2 0]] c9Container 0 0
      (by decide)).1 2 0 10,
   (c9_no_dangling_ids 0 [.ok [mkItem "a/b" 1 0, mkItem "a/c" 2 0]] c9Container 0 0
      (by decide)).1 1 0 10⟩

/-! ## C4 — bijection of the two indices -/

/-- `m` is a path-wise ancestor of (or equal to) `n`: `m`'s segment list is
an initial segment of `n`'s. -/
def PathUnder (m n : String) : Prop :=
  segs m = (segs n).take (segs m).length

instance (m n : String) : Decidable (PathUnder m n) := by
  unfold PathUnder; infer_instance

/-- A valid object name: every `/`-separated segment is non-empty (rules out
`""`, leading/trailing `/` and `//`). -/
def ValidName (n : String) : Prop := ∀ s ∈ segs n, s ≠ ""

instance (n : String) : Decidable (ValidName n) := by
  unfold ValidName; infer_instance

/-- A good listing: all names valid and no name a path-wise ancestor of
another (reflexivity of `PathUnder` makes this also rule out duplicates). -/
def GoodNames (names : List String) : Prop :=
  names.Pairwise (fun m n => ¬ PathUnder m n ∧ ¬ PathUnder n m) ∧
    ∀ n ∈ names, ValidName n

instance (names : List String) : Decidable (GoodNames names) := by
  unfold GoodNames; infer_instance

/-- `p` is a proper prefix path (synthesized-directory path) of some listed
name: the join of its first `i` segments, `1 ≤ i <` segment count. -/
def SynthDir (ns : List String) (p : String) : Prop :=
  ∃ m ∈ ns, ∃ i, 1 ≤ i ∧ i < (segs m).length ∧ p = joinSlash ((segs m).take i)

theorem take_ne_nil_of_ne_nil {α : Type} {l : List α} (hl : l ≠ []) {k : Nat} (hk : 1 ≤ k) :
    l.take k ≠ [] := by
  cases l with
  | nil => exact absurd rfl hl
  | cons a as =>
      cases k with
      | zero => cases hk
      | succ k' => simp

theorem segs_take_join (n : String) (k : Nat) (h1 : 1 ≤ k) :
    segs (joinSlash ((segs n).take k)) = (segs n).take k := by
  apply segs_joinSlash
  · exact take_ne_nil_of_ne_nil (segs_ne_nil n) h1
  · intro s hs
    exact noSlash_of_mem_segs (List.take_subset k (segs n) hs)

theorem pathUnder_refl (n : String) : PathUnder n n := by
  unfold PathUnder
  rw [List.take_length]

theorem pathUnder_of_take {m n : String} {k : Nat} (h1 : 1 ≤ k)
    (h2 : k ≤ (segs n).length) (hm : m = joinSlash ((segs n).take k)) : PathUnder m n := by
  unfold PathUnder
  have hsm : segs m = (segs n).take k := by rw [hm]; exact segs_take_join n k h1
  rw [hsm, List.length_take, min_eq_left h2]

theorem ne_ancestor_self {n : String} {k : Nat} (h1 : 1 ≤ k) (h2 : k < (segs n).length) :
    n ≠ joinSlash ((segs n).take k) := by
  intro hcontra
  have hsm : segs n = (segs n).take k := by
    conv_lhs => rw [hcontra]
    exact segs_take_join n k h1
  have hlen := congrArg List.length hsm
  rw [List.length_take, min_eq_left (le_of_lt h2)] at hlen
  exact absurd hlen (Nat.ne_of_gt h2)

theorem validName_ne_empty {n : String} (h : ValidName n) : n ≠ "" := by
  intro hcontra
  subst hcontra
  exact h "" (by rw [segs_empty]; simp) rfl

/-- The container's two maps and counter, with the paths of files and
directories abstracted: `files` over-approximates the set of paths holding
File entries, `dirPaths` the paths holding Directory entries; the two maps
are mutually inverse on live entries and all registered inodes are below
`next_inode`. -/
structure MapsInv (c : BlobContainer) (files dirPaths : String → Prop) : Prop where
  two_le : 2 ≤ c.nextInode
  fresh : ∀ i n, alookup c.inodeMap i = some n → i < c.nextInode
  bijL : ∀ i n, alookup c.inodeMap i = some n →
    ∃ e, alookup c.blobCache n = some e ∧ entryInode e = i
  bijR : ∀ n e, alookup c.blobCache n = some e →
    alookup c.inodeMap (entryInode e) = some n
  keys : ∀ n e, alookup c.blobCache n = some e → files n ∨ dirPaths n
  dirs : ∀ n, dirPaths n → ∃ d, alookup c.blobCache n = some (BlobEntry.dir d)
  filesOnly : ∀ n b, alookup c.blobCache n = some (BlobEntry.file b) → files n

theorem mapsInv_congr {c : BlobContainer} {files files' dirPaths dirPaths' : String → Prop}
    (hf : ∀ q, files q ↔ files' q) (hd : ∀ q, dirPaths q ↔ dirPaths' q)
    (inv : MapsInv c files dirPaths) : MapsInv c files' dirPaths' := by
  refine ⟨inv.two_le, inv.fresh, inv.bijL, inv.bijR, ?_, ?_, ?_⟩
  · intro n e h
    rcases inv.keys n e h with h1 | h2
    · exact Or.inl ((hf n).mp h1)
    · exact Or.inr ((hd n).mp h2)
  · intro n h
    exact inv.dirs n ((hd n).mpr h)
  · intro n b h
    exact (hf n).mp (inv.filesOnly n b h)

theorem mapsInv_initial :
    MapsInv BlobContainer.initial (fun q => q ∈ ([] : List String))
      (fun q => q = "" ∨ SynthDir [] q) := by
  refine ⟨le_refl 2, ?_, ?_, ?_, ?_, ?_, ?_⟩
  · intro i n h
    have h' : (if (1 : Nat) = i then some "" else none) = some n := h
    by_cases hi : (1 : Nat) = i
    · subst hi; decide
    · rw [if_neg hi] at h'; cases h'
  · intro i n h
    have h' : (if (1 : Nat) = i then some "" else none) = some n := h
    by_cases hi : (1 : Nat) = i
    · rw [if_pos hi] at h'
      obtain rfl : "" = n := by injection h'
      subst hi
      exact ⟨BlobEntry.dir BlobDirectory.root, by decide, by decide⟩
    · rw [if_neg hi] at h'; cases h'
  · intro n e h
    have h' : (if ("" : String) = n then some (BlobEntry.dir BlobDirectory.root) else none) =
        some e := h
    by_cases hn : ("" : String) = n
    · rw [if_pos hn] at h'
      obtain rfl : BlobEntry.dir BlobDirectory.root = e := by injection h'
      subst hn
      decide
    · rw [if_neg hn] at h'; cases h'
  · intro n e h
    have h' : (if ("" : String) = n then some (BlobEntry.dir BlobDirectory.root) else none) =
        some e := h
    by_cases hn : ("" : String) = n
    · exact Or.inr (Or.inl hn.symm)
    · rw [if_neg hn] at h'; cases h'
  · intro n h
    rcases h with h1 | h2
    · subst h1
      exact ⟨BlobDirectory.root, by decide⟩
    · obtain ⟨m, hm, _⟩ := h2
      cases hm
  · intro n b h
    have h' : (if ("" : String) = n then some (BlobEntry.dir BlobDirectory.root) else none) =
        some (BlobEntry.file b) := h
    by_cases hn : ("" : String) = n
    · rw [if_pos hn] at h'
      obtain hdd : BlobEntry.dir BlobDirectory.root = BlobEntry.file b := by injection h'
      cases hdd
    · rw [if_neg hn] at h'; cases h'

/-- Inserting a fresh entry (inode = `next_inode`, path not yet cached) into
both maps preserves the two-map invariant, with the path classified
according to the entry's variant. -/
theorem mapsInv_insert_fresh {c c' : BlobContainer} {files dirPaths files' dirPaths' :
    String → Prop} (inv : MapsInv c files dirPaths) {name : String} {e : BlobEntry}
    (hnone : alookup c.blobCache name = none)
    (hinode : entryInode e = c.nextInode)
    (hcache : c'.blobCache = ainsert c.blobCache name e)
    (himap : c'.inodeMap = ainsert c.inodeMap c.nextInode name)
    (hnext : c'.nextInode = c.nextInode + 1)
    (hfiles : ∀ q, files q → files' q) (hdirs : ∀ q, dirPaths q → dirPaths' q)
    (hnewf : ∀ b, e = BlobEntry.file b → files' name)
    (hnewd : ∀ d, e = BlobEntry.dir d → dirPaths' name)
    (hdirs' : ∀ q, dirPaths' q → dirPaths q ∨ (q = name ∧ ∃ d, e = BlobEntry.dir d)) :
    MapsInv c' files' dirPaths' := by
  refine ⟨?_, ?_, ?_, ?_, ?_, ?_, ?_⟩
  · rw [hnext]; exact le_trans inv.two_le (Nat.le_succ _)
  · intro i n h
    rw [himap] at h
    rw [hnext]
    by_cases hi : i = c.nextInode
    · subst hi; exact Nat.lt_succ_self _
    · rw [alookup_ainsert_ne _ _ _ _ hi] at h
      exact Nat.lt_succ_of_lt (inv.fresh i n h)
  · intro i n h
    rw [himap] at h
    rw [hcache]
    by_cases hi : i = c.nextInode
    · subst hi
      rw [alookup_ainsert_self] at h
      obtain rfl : name = n := by injection h
      exact ⟨e, alookup_ainsert_self _ _ _, hinode⟩
    · rw [alookup_ainsert_ne _ _ _ _ hi] at h
      obtain ⟨e0, he0, hei0⟩ := inv.bijL i n h
      have hn : n ≠ name := by
        intro hcontra
        rw [hcontra, hnone] at he0
        cases he0
      rw [alookup_ainsert_ne _ _ _ _ hn]
      exact ⟨e0, he0, hei0⟩
  · intro n e' h
    rw [hcache] at h
    rw [himap]
    by_cases hn : n = name
    · subst hn
      rw [alookup_ainsert_self] at h
      obtain rfl : e = e' := by injection h
      rw [hinode]
      exact alookup_ainsert_self _ _ _
    · rw [alookup_ainsert_ne _ _ _ _ hn] at h
      have hr := inv.bijR n e' h
      have hne : entryInode e' ≠ c.nextInode :=
        Nat.ne_of_lt (inv.fresh (entryInode e') n hr)
      rw [alookup_ainsert_ne _ _ _ _ hne]
      exact hr
  · intro n e' h
    rw [hcache] at h
    by_cases hn : n = name
    · subst hn
      rw [alookup_ainsert_self] at h
      obtain rfl : e = e' := by injection h
      cases he : e with
      | file b => exact Or.inl (hnewf b he)
      | dir d => exact Or.inr (hnewd d he)
    · rw [alookup_ainsert_ne _ _ _ _ hn] at h
      rcases inv.keys n e' h with h1 | h2
      · exact Or.inl (hfiles n h1)
      · exact Or.inr (hdirs n h2)
  · intro n hq
    rw [hcache]
    rcases hdirs' n hq with h1 | ⟨rfl, d, rfl⟩
    · obtain ⟨d0, hd0⟩ := inv.dirs n h1
      have hn : n ≠ name := by
        intro hcontra
        rw [hcontra, hnone] at hd0
        cases hd0
      rw [alookup_ainsert_ne _ _ _ _ hn]
      exact ⟨d0, hd0⟩
    · exact ⟨d, alookup_ainsert_self _ _ _⟩
  · intro n b h
    rw [hcache] at h
    by_cases hn : n = name
    · subst hn
      rw [alookup_ainsert_self] at h
      exact hnewf b (by injection h)
    · rw [alookup_ainsert_ne _ _ _ _ hn] at h
      exact hfiles n (inv.filesOnly n b h)

/-- Updating an existing directory entry in place by adding one child
preserves the two-map invariant (the entry keeps its path and inode). -/
theorem mapsInv_add_child {c c' : BlobContainer} {files dirPaths : String → Prop}
    (inv : MapsInv c files dirPaths) {pname : String} {d : BlobDirectory}
    (hd : alookup c.blobCache pname = some (BlobEntry.dir d)) {s0 : String} {j0 : Nat}
    (hcache : c'.blobCache = ainsert c.blobCache pname (BlobEntry.dir (d.addFile s0 j0)))
    (himap : c'.inodeMap = c.inodeMap) (hnext : c'.nextInode = c.nextInode) :
    MapsInv c' files dirPaths := by
  refine ⟨?_, ?_, ?_, ?_, ?_, ?_, ?_⟩
  · rw [hnext]; exact inv.two_le
  · intro i n h
    rw [himap] at h
    rw [hnext]
    exact inv.fresh i n h
  · intro i n h
    rw [himap] at h
    rw [hcache]
    obtain ⟨e0, he0, hei0⟩ := inv.bijL i n h
    by_cases hn : n = pname
    · subst hn
      rw [hd] at he0
      obtain rfl : BlobEntry.dir d = e0 := by injection he0
      refine ⟨BlobEntry.dir (d.addFile s0 j0), alookup_ainsert_self _ _ _, ?_⟩
      exact hei0
    · rw [alookup_ainsert_ne _ _ _ _ hn]
      exact ⟨e0, he0, hei0⟩
  · intro n e' h
    rw [hcache] at h
    rw [himap]
    by_cases hn : n = pname
    · subst hn
      rw [alookup_ainsert_self] at h
      obtain rfl : BlobEntry.dir (d.addFile s0 j0) = e' := by injection h
      exact inv.bijR n (BlobEntry.dir d) hd
    · rw [alookup_ainsert_ne _ _ _ _ hn] at h
      exact inv.bijR n e' h
  · intro n e' h
    rw [hcache] at h
    by_cases hn : n = pname
    · subst hn
      exact inv.keys n (BlobEntry.dir d) hd
    · rw [alookup_ainsert_ne _ _ _ _ hn] at h
      exact inv.keys n e' h
  · intro n hq
    rw [hcache]
    by_cases hn : n = pname
    · subst hn
      exact ⟨d.addFile s0 j0, alookup_ainsert_self _ _ _⟩
    · rw [alookup_ainsert_ne _ _ _ _ hn]
      exact inv.dirs n hq
  · intro n b h
    rw [hcache] at h
    by_cases hn : n = pname
    · subst hn
      rw [alookup_ainsert_self] at h
      cases h
    · rw [alookup_ainsert_ne _ _ _ _ hn] at h
      exact inv.filesOnly n b h

/-- `add_directory` on a fresh path with a fresh inode (followed by the
`next_inode` bump, exactly as `process_directories` performs it) preserves
the two-map invariant, classifying the new path as a directory path. -/
theorem mapsInv_create_dir (c : BlobContainer) {files dirPaths : String → Prop}
    (inv : MapsInv c files dirPaths) (name : String) (parent : Nat)
    (hnone : alookup c.blobCache name = none) (_hpar : parent < c.nextInode) :
    MapsInv { c.addDirectory name c.nextInode parent with nextInode := c.nextInode + 1 }
      files (fun q => dirPaths q ∨ q = name) := by
  have midInv : MapsInv
      { blobCache := ainsert c.blobCache name
          (BlobEntry.dir (BlobDirectory.new c.nextInode parent))
        inodeMap := ainsert c.inodeMap c.nextInode name
        nextInode := c.nextInode + 1 } files (fun q => dirPaths q ∨ q = name) := by
    refine mapsInv_insert_fresh inv hnone
      (show entryInode (BlobEntry.dir (BlobDirectory.new c.nextInode parent)) = c.nextInode
        from rfl) rfl rfl rfl (fun q h => h) (fun q h => Or.inl h) ?_ ?_ ?_
    · intro b hb; cases hb
    · intro d hd; exact Or.inr rfl
    · intro q hq
      rcases hq with h1 | h2
      · exact Or.inl h1
      · exact Or.inr ⟨h2, BlobDirectory.new c.nextInode parent, rfl⟩
  rw [addDirectory_eq]
  split
  · exact midInv
  · split
    · rename_i pname hpp d hcc
      exact mapsInv_add_child midInv hcc rfl rfl rfl
    · exact midInv

theorem mapsInv_processStep (parts : List String) {files dirPaths : String → Prop}
    (st : Nat × BlobContainer) (i : Nat)
    (inv : MapsInv st.2 files dirPaths)
    (hparent : st.1 < st.2.nextInode)
    (hnf : ¬ files (joinSlash (parts.take i))) :
    MapsInv (processStep parts st i).2 files
      (fun q => dirPaths q ∨ q = joinSlash (parts.take i)) ∧
    (processStep parts st i).1 < (processStep parts st i).2.nextInode := by
  rw [processStep_eq]
  cases hcc : alookup st.2.blobCache (joinSlash (parts.take i)) with
  | none =>
      exact ⟨mapsInv_create_dir st.2 inv (joinSlash (parts.take i)) st.1 hcc hparent,
        Nat.lt_succ_self _⟩
  | some e =>
      cases e with
      | dir d =>
          refine ⟨⟨inv.two_le, inv.fresh, inv.bijL, inv.bijR, ?_, ?_, ?_⟩, ?_⟩
          · intro n e' h
            rcases inv.keys n e' h with h1 | h2
            · exact Or.inl h1
            · exact Or.inr (Or.inl h2)
          · intro n hq
            rcases hq with h1 | h2
            · exact inv.dirs n h1
            · subst h2
              exact ⟨d, hcc⟩
          · exact inv.filesOnly
          · exact inv.fresh (entryInode (BlobEntry.dir d)) _ (inv.bijR _ _ hcc)
      | file b =>
          exact absurd (inv.filesOnly _ b hcc) hnf

theorem mapsInv_loop (parts : List String) {files : String → Prop} :
    ∀ (cnt i : Nat) (st : Nat × BlobContainer) (dirPaths : String → Prop),
      MapsInv st.2 files dirPaths →
      st.1 < st.2.nextInode →
      (∀ k, i ≤ k → k < i + cnt → ¬ files (joinSlash (parts.take k))) →
      MapsInv (((List.range' i cnt).foldl (processStep parts) st).2) files
        (fun q => dirPaths q ∨ ∃ k, i ≤ k ∧ k < i + cnt ∧ q = joinSlash (parts.take k)) := by
  intro cnt
  induction cnt with
  | zero =>
      intro i st dirPaths inv hp hf
      refine mapsInv_congr (fun q => Iff.rfl) ?_ inv
      intro q
      constructor
      · intro h; exact Or.inl h
      · intro h
        rcases h with h1 | ⟨k, hk1, hk2, _⟩
        · exact h1
        · omega
  | succ cnt ih =>
      intro i st dirPaths inv hp hf
      have hstep := mapsInv_processStep parts st i inv hp (hf i (le_refl i) (by omega))
      have hrest := ih (i + 1) (processStep parts st i)
        (fun q => dirPaths q ∨ q = joinSlash (parts.take i)) hstep.1 hstep.2
        (fun k hk1 hk2 => hf k (by omega) (by omega))
      refine mapsInv_congr (fun q => Iff.rfl) ?_ hrest
      intro q
      constructor
      · intro h
        rcases h with h1 | h2
        · rcases h1 with h1a | h1b
          · exact Or.inl h1a
          · exact Or.inr ⟨i, le_refl i, by omega, h1b⟩
        · obtain ⟨k, hk1, hk2, hk3⟩ := h2
          exact Or.inr ⟨k, by omega, by omega, hk3⟩
      · intro h
        rcases h with h1 | ⟨k, hk1, hk2, hk3⟩
        · exact Or.inl (Or.inl h1)
        · by_cases hk : k = i
          · subst hk
            exact Or.inl (Or.inr hk3)
          · exact Or.inr ⟨k, by omega, by omega, hk3⟩

theorem mapsInv_processDirectories (c : BlobContainer) (n : String)
    {files dirPaths : String → Prop} (inv : MapsInv c files dirPaths)
    (hf : ∀ k, 1 ≤ k → k < (segs n).length → ¬ files (joinSlash ((segs n).take k))) :
    MapsInv (c.processDirectories n) files
      (fun q => dirPaths q ∨
        ∃ k, 1 ≤ k ∧ k < (segs n).length ∧ q = joinSlash ((segs n).take k)) := by
  have hlen : 1 ≤ (segs n).length := by
    cases hs : segs n with
    | nil => exact absurd hs (segs_ne_nil n)
    | cons a l => simp
  have h := mapsInv_loop (segs n) ((segs n).length - 1) 1 (fuseRootId, c) dirPaths inv
    (lt_of_lt_of_le (by decide : (1 : Nat) < 2) inv.two_le)
    (fun k hk1 hk2 => hf k hk1 (by omega))
  refine mapsInv_congr (fun q => Iff.rfl) ?_ h
  intro q
  constructor
  · intro hcase
    rcases hcase with h1 | ⟨k, hk1, hk2, hk3⟩
    · exact Or.inl h1
    · exact Or.inr ⟨k, hk1, by omega, hk3⟩
  · intro hcase
    rcases hcase with h1 | ⟨k, hk1, hk2, hk3⟩
    · exact Or.inl h1
    · exact Or.inr ⟨k, hk1, by omega, hk3⟩

theorem mapsInv_insertBlob (now : Nat) (item : BlobItem) (parentPath : String)
    (c1 : BlobContainer) {files dirPaths : String → Prop}
    (inv : MapsInv c1 files dirPaths)
    (hnone : alookup c1.blobCache item.name = none) :
    MapsInv (insertBlob now item parentPath c1)
      (fun q => files q ∨ q = item.name) dirPaths := by
  have midInv : MapsInv
      ({ blobCache := ainsert c1.blobCache item.name
           (.file (blobInfoOfItem now item c1.nextInode))
         inodeMap := ainsert c1.inodeMap c1.nextInode item.name
         nextInode := c1.nextInode + 1 } : BlobContainer)
      (fun q => files q ∨ q = item.name) dirPaths := by
    refine mapsInv_insert_fresh inv hnone
      (show entryInode (BlobEntry.file (blobInfoOfItem now item c1.nextInode)) =
        c1.nextInode from rfl)
      rfl rfl rfl (fun q h => Or.inl h) (fun q h => h) ?_ ?_ ?_
    · intro b hb; exact Or.inr rfl
    · intro d hd; cases hd
    · intro q hq; exact Or.inl hq
  rw [insertBlob_eq]
  split
  · rename_i pd hcc
    exact mapsInv_add_child midInv hcc rfl rfl rfl
  · exact midInv

theorem pathParent_valid {n : String} (h : ValidName n) :
    pathParent n = some (joinSlash ((segs n).dropLast)) := by
  unfold pathParent
  have hfilter : (segs n).filter (fun t => t ≠ "") = segs n :=
    List.filter_eq_self.mpr (fun a ha => by simpa using h a ha)
  rw [hfilter]
  cases hs : segs n with
  | nil => exact absurd hs (segs_ne_nil n)
  | cons a l => rfl

theorem synthDir_congr {ns ns' : List String} (h : ∀ m, m ∈ ns ↔ m ∈ ns') (q : String) :
    SynthDir ns q ↔ SynthDir ns' q := by
  unfold SynthDir
  constructor
  · rintro ⟨m, hm, i, hi⟩; exact ⟨m, (h m).mp hm, i, hi⟩
  · rintro ⟨m, hm, i, hi⟩; exact ⟨m, (h m).mpr hm, i, hi⟩

theorem mapsInv_processItem (now : Nat) (item : BlobItem) (ns : List String)
    (c : BlobContainer)
    (inv : MapsInv c (fun q => q ∈ ns) (fun q => q = "" ∨ SynthDir ns q))
    (hval : ValidName item.name)
    (hsep : ∀ m ∈ ns, ¬ PathUnder m item.name ∧ ¬ PathUnder item.name m) :
    MapsInv (processItem now c item) (fun q => q ∈ ns ∨ q = item.name)
      (fun q => q = "" ∨ SynthDir (ns ++ [item.name]) q) := by
  have hf : ∀ k, 1 ≤ k → k < (segs item.name).length →
      ¬ (joinSlash ((segs item.name).take k) ∈ ns) := by
    intro k hk1 hk2 hmem
    exact (hsep _ hmem).1 (pathUnder_of_take hk1 (le_of_lt hk2) rfl)
  have h1 := mapsInv_processDirectories c item.name inv hf
  have hnone : alookup (c.processDirectories item.name).blobCache item.name = none := by
    cases hsome : alookup (c.processDirectories item.name).blobCache item.name with
    | none => rfl
    | some e =>
        exfalso
        rcases h1.keys item.name e hsome with hmem | hdir
        · exact (hsep item.name hmem).1 (pathUnder_refl item.name)
        · rcases hdir with hdir1 | hdir2
          · rcases hdir1 with hempty | hsynth
            · exact validName_ne_empty hval hempty
            · obtain ⟨m, hm, i, hi1, hi2, heq⟩ := hsynth
              exact (hsep m hm).2 (pathUnder_of_take hi1 (le_of_lt hi2) heq)
          · obtain ⟨k, hk1, hk2, hk3⟩ := hdir2
            exact ne_ancestor_self hk1 hk2 hk3
  have h2 := mapsInv_insertBlob now item (joinSlash ((segs item.name).dropLast))
    (c.processDirectories item.name) h1 hnone
  have heq : processItem now c item =
      insertBlob now item (joinSlash ((segs item.name).dropLast))
        (c.processDirectories item.name) := by
    unfold processItem
    rw [pathParent_valid hval]
  rw [heq]
  refine mapsInv_congr (fun q => Iff.rfl) ?_ h2
  intro q
  constructor
  · intro hcase
    rcases hcase with hc1 | hc2
    · rcases hc1 with he | hs
      · exact Or.inl he
      · obtain ⟨m, hm, i, hi1, hi2, hq⟩ := hs
        exact Or.inr ⟨m, List.mem_append_left _ hm, i, hi1, hi2, hq⟩
    · obtain ⟨k, hk1, hk2, hk3⟩ := hc2
      exact Or.inr ⟨item.name, List.mem_append_right _ (List.mem_singleton_self _),
        k, hk1, hk2, hk3⟩
  · intro hcase
    rcases hcase with he | hs
    · exact Or.inl (Or.inl he)
    · obtain ⟨m, hm, i, hi1, hi2, hq⟩ := hs
      rcases List.mem_append.mp hm with hm1 | hm2
      · exact Or.inl (Or.inr ⟨m, hm1, i, hi1, hi2, hq⟩)
      · obtain rfl : m = item.name := by simpa using hm2
        exact Or.inr ⟨i, hi1, hi2, hq⟩

theorem goodNames_append_left {l1 l2 : List String} (h : GoodNames (l1 ++ l2)) :
    GoodNames l1 :=
  ⟨(List.pairwise_append.mp h.1).1, fun n hn => h.2 n (List.mem_append_left _ hn)⟩

theorem mapsInv_foldl_items (now : Nat) :
    ∀ (items : List BlobItem) (ns : List String) (c : BlobContainer),
      MapsInv c (fun q => q ∈ ns) (fun q => q = "" ∨ SynthDir ns q) →
      GoodNames (ns ++ items.map BlobItem.name) →
      MapsInv (items.foldl (processItem now) c)
        (fun q => q ∈ ns ++ items.map BlobItem.name)
        (fun q => q = "" ∨ SynthDir (ns ++ items.map BlobItem.name) q) := by
  intro items
  induction items with
  | nil =>
      intro ns c inv hg
      refine mapsInv_congr ?_ ?_ inv
      · intro q; simp
      · intro q
        have hmem : ∀ m, m ∈ ns ↔ m ∈ ns ++ ([] : List BlobItem).map BlobItem.name := by
          intro m; simp
        constructor
        · intro h
          rcases h with h1 | h2
          · exact Or.inl h1
          · exact Or.inr ((synthDir_congr hmem q).mp h2)
        · intro h
          rcases h with h1 | h2
          · exact Or.inl h1
          · exact Or.inr ((synthDir_congr hmem q).mpr h2)
  | cons it rest ih =>
      intro ns c inv hg
      have hvn : ValidName it.name := hg.2 it.name (by simp)
      have hsep : ∀ m ∈ ns, ¬ PathUnder m it.name ∧ ¬ PathUnder it.name m := by
        intro m hm
        exact (List.pairwise_append.mp hg.1).2.2 m hm it.name (by simp)
      have step := mapsInv_processItem now it ns c inv hvn hsep
      have step' : MapsInv (processItem now c it) (fun q => q ∈ ns ++ [it.name])
          (fun q => q = "" ∨ SynthDir (ns ++ [it.name]) q) := by
        refine mapsInv_congr ?_ (fun q => Iff.rfl) step
        intro q; simp
      have hg' : GoodNames ((ns ++ [it.name]) ++ rest.map BlobItem.name) := by
        rw [List.append_assoc]
        exact hg
      have hrest := ih (ns ++ [it.name]) (processItem now c it) step' hg'
      refine mapsInv_congr ?_ ?_ hrest
      · intro q; simp
      · intro q
        have hmem : ∀ m, m ∈ (ns ++ [it.name]) ++ rest.map BlobItem.name ↔
            m ∈ ns ++ (it :: rest).map BlobItem.name := by
          intro m; simp
        constructor
        · intro h
          rcases h with h1 | h2
          · exact Or.inl h1
          · exact Or.inr ((synthDir_congr hmem q).mp h2)
        · intro h
          rcases h with h1 | h2
          · exact Or.inl h1
          · exact Or.inr ((synthDir_congr hmem q).mpr h2)

/-- The names of one listing page. -/
def pageNames : Except String (List BlobItem) → List String
  | .ok items => items.map BlobItem.name
  | .error _ => []

/-- All object names of a paginated listing, in order. -/
def listingNames (pages : List (Except String (List BlobItem))) : List String :=
  (pages.map pageNames).flatten

theorem mapsInv_loadBlobs (now : Nat) :
    ∀ (pages : List (Except String (List BlobItem))) (ns : List String)
      (c c' : BlobContainer),
      MapsInv c (fun q => q ∈ ns) (fun q => q = "" ∨ SynthDir ns q) →
      GoodNames (ns ++ listingNames pages) →
      loadBlobs now c pages = .ok c' →
      MapsInv c' (fun q => q ∈ ns ++ listingNames pages)
        (fun q => q = "" ∨ SynthDir (ns ++ listingNames pages) q) := by
  intro pages
  induction pages with
  | nil =>
      intro ns c c' inv hg hl
      obtain rfl : c = c' := by injection hl
      refine mapsInv_congr ?_ ?_ inv
      · intro q; simp [listingNames]
      · intro q
        have hmem : ∀ m, m ∈ ns ↔ m ∈ ns ++ listingNames [] := by
          intro m; simp [listingNames]
        constructor
        · intro h
          rcases h with h1 | h2
          · exact Or.inl h1
          · exact Or.inr ((synthDir_congr hmem q).mp h2)
        · intro h
          rcases h with h1 | h2
          · exact Or.inl h1
          · exact Or.inr ((synthDir_congr hmem q).mpr h2)
  | cons p rest ih =>
      intro ns c c' inv hg hl
      cases p with
      | error e => cases hl
      | ok items =>
          have hln : listingNames (Except.ok items :: rest) =
              items.map BlobItem.name ++ listingNames rest := rfl
          rw [hln] at hg ⊢
          rw [← List.append_assoc] at hg ⊢
          have hfold := mapsInv_foldl_items now items ns c inv (goodNames_append_left hg)
          exact ih (ns ++ items.map BlobItem.name) (items.foldl (processItem now) c) c'
            hfold hg hl

/-- The container built from the listing `a`, `a/b` (the blob `a` is both an
object and a path prefix of another object). -/
def c4Container : BlobContainer :=
  getOkOr BlobContainer.initial
    (BlobContainer.build 0 [.ok [mkItem "a" 1 0, mkItem "a/b" 2 0]])

/-- C4 counterexample: construction from the listing `a`, `a/b` succeeds,
yet identifiers 2 and 3 both map to the path `a` (the synthesized directory
`a` overwrote the File entry while inode 2 still points at the path), so the
identifier-to-path map is not injective and the claimed bijection fails. -/
theorem c4_two_ids_one_path :
    BlobContainer.build 0 [.ok [mkItem "a" 1 0, mkItem "a/b" 2 0]] = .ok c4Container ∧
    alookup c4Container.inodeMap 2 = some "a" ∧
    alookup c4Container.inodeMap 3 = some "a" ∧
    (2 : Nat) ≠ 3 := by
  refine ⟨by decide, by decide, by decide, by decide⟩

/-- C4 (amended): for every listing whose object names are valid
(non-empty, no empty segments) and pairwise path-independent (no name is a
slash-wise prefix of another — which also rules out duplicates), after any
successful construction the identifier-to-path and path-to-entry maps form a
bijection over live entries: every registered identifier maps to a path
whose entry carries that same identifier; every cached entry's identifier
maps back to exactly its own path; and no two identifiers map to the same
path. -/
theorem c4_bijection (now : Nat) (pages : List (Except String (List BlobItem)))
    (c : BlobContainer) (hgood : GoodNames (listingNames pages))
    (hbuild : BlobContainer.build now pages = .ok c) :
    (∀ i n, alookup c.inodeMap i = some n →
      ∃ e, alookup c.blobCache n = some e ∧ entryInode e = i) ∧
    (∀ n e, alookup c.blobCache n = some e →
      alookup c.inodeMap (entryInode e) = some n) ∧
    (∀ i1 i2 n, alookup c.inodeMap i1 = some n → alookup c.inodeMap i2 = some n →
      i1 = i2) := by
  have h := mapsInv_loadBlobs now pages [] BlobContainer.initial c mapsInv_initial
    hgood hbuild
  refine ⟨h.bijL, h.bijR, ?_⟩
  intro i1 i2 n h1 h2
  obtain ⟨e1, he1, hei1⟩ := h.bijL i1 n h1
  obtain ⟨e2, he2, hei2⟩ := h.bijL i2 n h2
  obtain rfl : e1 = e2 := by injection he1.symm.trans he2
  exact hei1.symm.trans hei2

/-- A prefix-free two-object listing. -/
def c4GoodPages : List (Except String (List BlobItem)) :=
  [.ok [mkItem "a/b/c" 1 0, mkItem "a/b/d" 2 0]]

/-- The container built from `c4GoodPages`. -/
def c4GoodContainer : BlobContainer :=
  getOkOr BlobContainer.initial (BlobContainer.build 0 c4GoodPages)

/-- Witness for `c4_bijection`: the prefix-free listing `a/b/c`, `a/b/d`,
instantiated at identifier 4 (the file `a/b/c`). -/
theorem c4_bijection_witness :
    ∃ e, alookup c4GoodContainer.blobCache "a/b/c" = some e ∧ entryInode e = 4 :=
  (c4_bijection 0 c4GoodPages c4GoodContainer (by decide) (by decide)).1 4 "a/b/c"
    (by decide)
